import Mathlib

/-!
Verification of the BookForge style linter (tools/style_lint.py).

Texts are shallowly embedded as lists of characters.  Each definition below
mirrors the Python function of the same (or clearly indicated) name from
tools/style_lint.py; regular expressions are embedded as executable scanning
functions over the character list, with the character classes restricted to
the ASCII plus Russian repertoire the linter actually handles.
-/

namespace StyleLint

/-- The character class of re.sub(r"[ \t]+$"): horizontal whitespace. -/
def isHorizWS (c : Char) : Bool := c == ' ' || c == '\t'

/-- The whitespace class of the regex class backslash-s and of str.strip,
over the ASCII range (space, tab, newline, carriage return, vertical tab,
form feed). -/
def isSpaceCh (c : Char) : Bool :=
  c == ' ' || c == '\t' || c == '\n' || c == '\r' || c == '\x0b' || c == '\x0c'

/-- Python str.lower restricted to the ASCII and Russian (U+0410 to U+044F,
plus Io) letters the linter deals with. -/
def ruLower (c : Char) : Char :=
  if 'A' ≤ c && c ≤ 'Z' then Char.ofNat (c.toNat + 32)
  else if 0x410 ≤ c.toNat && c.toNat ≤ 0x42F then Char.ofNat (c.toNat + 32)
  else if c.toNat == 0x401 then Char.ofNat 0x451
  else c

/-- Python str.lstrip(): drop leading whitespace. -/
def pyLstrip (l : List Char) : List Char := l.dropWhile isSpaceCh

/-- Python str.rstrip(): drop trailing whitespace. -/
def pyRstrip (l : List Char) : List Char := (l.reverse.dropWhile isSpaceCh).reverse

/-- Python str.strip(). -/
def pyStrip (l : List Char) : List Char := pyRstrip (pyLstrip l)

/-- The non-whitespace characters of a text, in order. -/
def filterNW (l : List Char) : List Char := l.filter (fun c => !isSpaceCh c)

/-- First pass of safe_autofix: re.sub(r"[ \t]+$", "", txt, re.MULTILINE).
`pend` buffers the horizontal whitespace read so far; it is flushed when an
ordinary character follows and dropped at a line end (before a newline or at
the end of the text), which is exactly where the MULTILINE anchor matches. -/
def stripTrailAux (pend : List Char) : List Char → List Char
  | [] => []
  | c :: cs =>
    if isHorizWS c then stripTrailAux (pend ++ [c]) cs
    else if c == '\n' then '\n' :: stripTrailAux [] cs
    else pend ++ c :: stripTrailAux [] cs

/-- The whole first pass of safe_autofix. -/
def stripTrailingWS (l : List Char) : List Char := stripTrailAux [] l

/-- What re.sub(r"\n{3,}", "\n\n", txt) leaves of one run of `run` newlines. -/
def emitRun (run : Nat) : List Char := List.replicate (if 3 ≤ run then 2 else run) '\n'

/-- Second pass of safe_autofix: collapse every run of three or more newlines
to exactly two; `run` counts the newlines read so far in the current run. -/
def collapseAux : List Char → Nat → List Char
  | [], run => emitRun run
  | c :: cs, run =>
    if c == '\n' then collapseAux cs (run + 1)
    else emitRun run ++ c :: collapseAux cs 0

/-- The whole second pass of safe_autofix. -/
def collapseNL (l : List Char) : List Char := collapseAux l 0

/-- safe_autofix from tools/style_lint.py: strip trailing horizontal
whitespace on every line, then collapse runs of three or more newlines. -/
def safe_autofix (l : List Char) : List Char := collapseNL (stripTrailingWS l)

/-- The words of a text: its maximal runs of non-whitespace characters, in
order. `cur` accumulates the characters of the current word, reversed. -/
def wordsAux (cur : List Char) : List Char → List (List Char)
  | [] => if cur.isEmpty then [] else [cur.reverse]
  | c :: cs =>
    if isSpaceCh c then
      if cur.isEmpty then wordsAux [] cs else cur.reverse :: wordsAux [] cs
    else wordsAux (c :: cur) cs

/-- The word sequence of a text; two texts have the same word boundaries
exactly when their word sequences agree. -/
def wordsOf (l : List Char) : List (List Char) := wordsAux [] l

/-- The lengths of the maximal runs of newline characters of a text, in
order; `run` counts the newlines read so far in the current run. -/
def nlRunsAux : List Char → Nat → List Nat
  | [], run => if run == 0 then [] else [run]
  | c :: cs, run =>
    if c == '\n' then nlRunsAux cs (run + 1)
    else if run == 0 then nlRunsAux cs 0 else run :: nlRunsAux cs 0

/-- The newline-run profile of a text: the line structure of a text is kept
exactly when its profile is, and collapsing blank-line runs caps the
profile's entries at two. -/
def nlRuns (l : List Char) : List Nat := nlRunsAux l 0

/-- True when the text begins with a newline. -/
def firstNl : List Char → Bool
  | [] => false
  | c :: _ => c == '\n'

/-- `c` is not a dangling horizontal whitespace with respect to what
follows it: horizontal whitespace may not sit at the end of a line. -/
def wsOk (c : Char) (rest : List Char) : Bool :=
  !isHorizWS c || (!rest.isEmpty && !firstNl rest)

/-- No line of the text ends in horizontal whitespace. -/
def noTrailWS : List Char → Bool
  | [] => true
  | c :: rest => wsOk c rest && noTrailWS rest

/-- No run of three or more consecutive newlines. -/
def ok3 : List Char → Bool
  | a :: b :: c :: t => (!(a == '\n' && b == '\n' && c == '\n')) && ok3 (b :: c :: t)
  | _ => true

/-- Sentence-terminal punctuation, the class [.!?] of SENT_SPLIT_SIMPLE_RE. -/
def isTerm (c : Char) : Bool := c == '.' || c == '!' || c == '?'

/-- Length of the separator match of re.split(r"\n\s*\n", ·) at the start of
`l`, or 0 when no separator starts here.  The pattern matches a newline, a
greedy run of whitespace, then backtracks to the last newline of that run, so
the separator is the prefix of the whitespace run up to its last newline,
provided that newline is not the first character. -/
def paraSepLen (l : List Char) : Nat :=
  if firstNl l then
    match (l.takeWhile isSpaceCh).reverse.findIdx? (fun x => x == '\n') with
    | none => 0
    | some k =>
      if 1 ≤ (l.takeWhile isSpaceCh).length - 1 - k
      then (l.takeWhile isSpaceCh).length - k
      else 0
  else 0

/-- re.split(r"\n\s*\n", ·): scan left to right, cutting at each separator.
The first argument is recursion fuel, always instantiated with the length of
the text (each step consumes at least one character, so the fuel never runs
out); it only makes the recursion structural. -/
def rawParaSplitF : Nat → List Char → List (List Char)
  | _, [] => [[]]
  | 0, l => [l]
  | fuel + 1, c :: cs =>
    if 0 < paraSepLen (c :: cs) then
      [] :: rawParaSplitF fuel ((c :: cs).drop (paraSepLen (c :: cs)))
    else
      match rawParaSplitF fuel cs with
      | [] => [[c]]
      | p :: ps => (c :: p) :: ps

/-- re.split(r"\n\s*\n", ·) on the whole text. -/
def rawParaSplit (l : List Char) : List (List Char) := rawParaSplitF l.length l

/-- split_paragraphs from tools/style_lint.py: split the stripped text on
blank-line separators, strip each part, drop empties. -/
def split_paragraphs (text : List Char) : List (List Char) :=
  ((rawParaSplit (pyStrip text)).map pyStrip).filter (fun p => !p.isEmpty)

/-- Naive sentence split, re.compile(r"(?<=[.!?])\s+").split: a split point
is a whitespace character whose predecessor is terminal punctuation; the
whole whitespace run is then consumed as the separator.  `prevTerm` records
whether the previously scanned character was terminal punctuation.  The
first argument is recursion fuel, always instantiated with the length of the
text, which each step strictly decreases. -/
def sentSplitAuxF : Nat → Bool → List Char → List (List Char)
  | _, _, [] => [[]]
  | 0, _, l => [l]
  | fuel + 1, prevTerm, c :: cs =>
    if prevTerm && isSpaceCh c then
      [] :: sentSplitAuxF fuel false (cs.dropWhile isSpaceCh)
    else
      match sentSplitAuxF fuel (isTerm c) cs with
      | [] => [[c]]
      | p :: ps => (c :: p) :: ps

/-- The naive sentence fragments of a paragraph (no preceding character at
the start, so no split can occur at position zero). -/
def sentRaw (para : List Char) : List (List Char) :=
  sentSplitAuxF para.length false para

/-- ABBREV_LIST from tools/style_lint.py. -/
def ABBREV_LIST : List (List Char) :=
  [ "т.е.".toList, "т.к.".toList, "и т.д.".toList, "и т.п.".toList, "д.р.".toList,
    "г.".toList, "стр.".toList, "рис.".toList ]

/-- re.sub(r"\s+", " ", ·): replace each whitespace run by a single space.
The first argument is recursion fuel, always instantiated with the length of
the text, which each step strictly decreases. -/
def collapseWsF : Nat → List Char → List Char
  | _, [] => []
  | 0, l => l
  | fuel + 1, c :: cs =>
    if isSpaceCh c then ' ' :: collapseWsF fuel (cs.dropWhile isSpaceCh)
    else c :: collapseWsF fuel cs

/-- re.sub(r"\s+", " ", ·) on the whole text. -/
def collapseWs (l : List Char) : List Char := collapseWsF l.length l

/-- _ends_with_abbrev from tools/style_lint.py: strip the chunk, normalize
its internal spacing, lowercase it, and test whether any configured
abbreviation is a suffix. -/
def endsWithAbbrev (chunk : List Char) : Bool :=
  let s := pyStrip chunk
  let sNorm := collapseWs s
  let sNormLower := sNorm.map ruLower
  ABBREV_LIST.any (fun abbr => abbr.isSuffixOf sNormLower)

/-- One step of the abbreviation-merge loop of split_sentences: strip the
token, skip it when empty, merge it into the last accepted fragment when
that fragment ends with an abbreviation, otherwise accept it. -/
def mergeStep (merged : List (List Char)) (token : List Char) : List (List Char) :=
  let tok := pyStrip token
  if tok.isEmpty then merged
  else
    match merged.getLast? with
    | some prev =>
      if endsWithAbbrev prev then
        merged.dropLast ++ [pyRstrip prev ++ ' ' :: pyLstrip tok]
      else merged ++ [tok]
    | none => merged ++ [tok]

/-- split_sentences from tools/style_lint.py.  (The source's early return on
an empty raw list is dead code: re.split always yields at least one part.) -/
def split_sentences (para : List Char) : List (List Char) :=
  (sentRaw para).foldl mergeStep []

/-- The character class of WORD_RE, [А-Яа-яA-Za-z0-9ёЁ-]. -/
def isWordRe (c : Char) : Bool :=
  ('A' ≤ c && c ≤ 'Z') || ('a' ≤ c && c ≤ 'z') || ('0' ≤ c && c ≤ '9') ||
  (0x410 ≤ c.toNat && c.toNat ≤ 0x44F) || c.toNat == 0x451 || c.toNat == 0x401 ||
  c == '-'

/-- Helper of word_count: counts the maximal runs of WORD_RE characters;
`inWord` records whether the previous character belonged to a run. -/
def wordCountAux : List Char → Bool → Nat
  | [], _ => 0
  | c :: cs, inWord =>
    (if isWordRe c && !inWord then 1 else 0) + wordCountAux cs (isWordRe c)

/-- word_count from tools/style_lint.py: len(WORD_RE.findall(s)). -/
def word_count (s : List Char) : Nat := wordCountAux s false

/-- The regex word class (backslash-w) restricted to the ASCII plus Russian
repertoire: ASCII alphanumerics, underscore, and Russian letters. -/
def isWordCh (c : Char) : Bool :=
  ('A' ≤ c && c ≤ 'Z') || ('a' ≤ c && c ≤ 'z') || ('0' ≤ c && c ≤ '9') || c == '_' ||
  (0x410 ≤ c.toNat && c.toNat ≤ 0x44F) || c.toNat == 0x451 || c.toNat == 0x401

/-- ASCII digit, the regex class backslash-d. -/
def isDigitCh (c : Char) : Bool := '0' ≤ c && c ≤ '9'

/-- Word boundary before a match starting with `first`, given the previous
character (`none` at the start of the text). -/
def wbBefore (prev : Option Char) (first : Char) : Bool :=
  match prev with
  | none => isWordCh first
  | some p => isWordCh p != isWordCh first

/-- Word boundary after a match ending with `lastC`, given the rest of the
text. -/
def wbAfter (lastC : Char) (rest : List Char) : Bool :=
  match rest with
  | [] => isWordCh lastC
  | c :: _ => isWordCh lastC != isWordCh c

/-- Case-insensitive literal match: if `l` starts with the (lowercase)
literal `lit` under ruLower, return the rest of `l`. -/
def stripCI : List Char → List Char → Option (List Char)
  | [], l => some l
  | _ :: _, [] => none
  | a :: abbr, c :: cs => if ruLower c == a then stripCI abbr cs else none

/-- re.search driver: try a match at every position, tracking the previous
character for word-boundary tests. -/
def searchAux (f : Option Char → List Char → Bool) : Option Char → List Char → Bool
  | prev, [] => f prev []
  | prev, c :: cs => f prev (c :: cs) || searchAux f (some c) cs

/-- re.search(pattern, s) as existence of a match at some position. -/
def reSearch (f : Option Char → List Char → Bool) (l : List Char) : Bool :=
  searchAux f none l

/-- Word-bounded case-insensitive literal at the current position, the shape
of each VAGUE_CLAIMS alternative and of the terminology regex. -/
def litBoundedAt (lit : List Char) (prev : Option Char) (l : List Char) : Bool :=
  match l with
  | [] => false
  | c :: _ =>
    match stripCI lit l with
    | some rest => wbBefore prev c && wbAfter ((l.take lit.length).getLastD ' ') rest
    | none => false

/-- VAGUE_CLAIMS from tools/style_lint.py (lowercase literal cores). -/
def VAGUE_CLAIMS : List (List Char) :=
  [ "значительно".toList, "существенно".toList, "быстро".toList,
    "эффективно".toList, "на порядок".toList ]

/-- VAGUE_RE.search(s): any vague-intensifier alternative matches. -/
def vagueMatch (s : List Char) : Bool :=
  reSearch (fun prev l => VAGUE_CLAIMS.any (fun lit => litBoundedAt lit prev l)) s

/-- re.search(r"\brouter\b", s, re.IGNORECASE). -/
def routerMatch (s : List Char) : Bool :=
  reSearch (fun prev l => litBoundedAt ("router".toList) prev l) s

/-- The unit alternatives of METRIC_RE (lowercase). -/
def METRIC_UNITS : List (List Char) :=
  [ "%".toList, "мин".toList, "час".toList, "дн".toList, "шаг".toList,
    "правил".toList, "mb".toList, "gb".toList, "стр".toList, "сек".toList ]

/-- A METRIC_RE unit alternative followed by a word boundary at the current
position. -/
def unitAt (l : List Char) : Bool :=
  METRIC_UNITS.any (fun u =>
    match stripCI u l with
    | some rest => wbAfter ((l.take u.length).getLastD ' ') rest
    | none => false)

/-- METRIC_RE match at the current position: one or more digits, at most one
whitespace character, a unit, and a word boundary. -/
def metricAt (l : List Char) : Bool :=
  let rest := l.dropWhile isDigitCh
  !(l.takeWhile isDigitCh).isEmpty &&
    (unitAt rest ||
      match rest with
      | c :: cs => isSpaceCh c && unitAt cs
      | [] => false)

/-- has_metric_nearby from tools/style_lint.py: METRIC_RE.search(s). -/
def has_metric_nearby (s : List Char) : Bool := reSearch (fun _ l => metricAt l) s

/-- The class [а-я] under re.IGNORECASE: plain Russian letters of either
case (Io excluded, as in the source pattern). -/
def isRuAZ (c : Char) : Bool :=
  (0x430 ≤ c.toNat && c.toNat ≤ 0x44F) || (0x410 ≤ c.toNat && c.toNat ≤ 0x42F)

/-- Tail of the second passive hint after its whitespace: one or more word
characters, the letter en, one or more [а-я], then a word boundary; matching
is existence of suitable split points `k` and `m`. -/
def p2Tail (l : List Char) : Bool :=
  (List.range l.length).any (fun k =>
    decide (1 ≤ k) && ((l.take k).all isWordCh) && (ruLower (l.getD k ' ') == 'н') &&
    ((List.range (l.length - k)).any (fun m =>
      decide (1 ≤ m) && (((l.drop (k + 1)).take m).all isRuAZ) &&
      wbAfter (((l.drop (k + 1)).take m).getLastD ' ') ((l.drop (k + 1)).drop m))))

/-- One or more whitespace characters, then the p2 tail. -/
def wsThenP2Tail (r : List Char) : Bool :=
  match r with
  | c :: _ => isSpaceCh c && p2Tail (r.dropWhile isSpaceCh)
  | [] => false

/-- Passive hint 1 at the current position:
the pattern "было", whitespace, "принято", whitespace, "решение", with word
boundaries on both sides, case-insensitively. -/
def p1At (prev : Option Char) (l : List Char) : Bool :=
  match l with
  | [] => false
  | c :: _ =>
    wbBefore prev c &&
    (match stripCI ("было".toList) l with
     | some r1 =>
       (match r1 with
        | d :: _ =>
          isSpaceCh d &&
          (let r2 := r1.dropWhile isSpaceCh
           match stripCI ("принято".toList) r2 with
           | some r3 =>
             (match r3 with
              | e :: _ =>
                isSpaceCh e &&
                (let r4 := r3.dropWhile isSpaceCh
                 match stripCI ("решение".toList) r4 with
                 | some r5 => wbAfter ((r4.take 7).getLastD ' ') r5
                 | none => false)
              | [] => false)
           | none => false)
        | [] => false)
     | none => false)

/-- Passive hint 2 at the current position: the pattern "был", an optional
letter a, i or o, whitespace, then the p2 tail, with a word boundary
before. -/
def p2At (prev : Option Char) (l : List Char) : Bool :=
  match l with
  | [] => false
  | c :: _ =>
    wbBefore prev c &&
    (match stripCI ("был".toList) l with
     | some r1 =>
       wsThenP2Tail r1 ||
       (match r1 with
        | d :: r2 =>
          (ruLower d == 'а' || ruLower d == 'и' || ruLower d == 'о') && wsThenP2Tail r2
        | [] => false)
     | none => false)

/-- Passive hint 3 at the current position: the pattern "произведен" with an
optional letter a, o or y, word-bounded on both sides. -/
def p3At (prev : Option Char) (l : List Char) : Bool :=
  match l with
  | [] => false
  | c :: _ =>
    wbBefore prev c &&
    (match stripCI ("произведен".toList) l with
     | some r1 =>
       wbAfter ((l.take 10).getLastD ' ') r1 ||
       (match r1 with
        | d :: r2 =>
          (ruLower d == 'а' || ruLower d == 'о' || ruLower d == 'ы') && wbAfter d r2
        | [] => false)
     | none => false)

/-- PASSIVE_RE.search(s): the alternation of the three passive hints. -/
def passiveMatch (s : List Char) : Bool :=
  reSearch (fun prev l => p1At prev l || p2At prev l || p3At prev l) s

/-- Helper of normalize: str.split() accumulating the current word reversed. -/
def wsTokensAux (cur : List Char) : List Char → List (List Char)
  | [] => if cur.isEmpty then [] else [cur.reverse]
  | c :: cs =>
    if isSpaceCh c then
      if cur.isEmpty then wsTokensAux [] cs else cur.reverse :: wsTokensAux [] cs
    else wsTokensAux (c :: cur) cs

/-- Python str.split(): the maximal whitespace-free runs. -/
def wsTokens (l : List Char) : List (List Char) := wsTokensAux [] l

/-- normalize from tools/style_lint.py: " ".join(s.lower().split()). -/
def normalize (s : List Char) : List Char :=
  List.intercalate [' '] (wsTokens (s.map ruLower))

/-- Python startswith on character lists. -/
def startsWithTxt : List Char → List Char → Bool
  | [], _ => true
  | _ :: _, [] => false
  | a :: abbr, c :: cs => a == c && startsWithTxt abbr cs

/-- Python substring containment, needle in haystack. -/
def containsTxt (needle : List Char) : List Char → Bool
  | [] => needle.isEmpty
  | c :: cs => startsWithTxt needle (c :: cs) || containsTxt needle cs

/-- One entry of the possibly-nested forbidden lexicon list: a string, a
nested list of strings, or a value of any other shape (skipped). -/
inductive LexItem where
  | str (s : List Char)
  | lst (items : List (List Char))
  | other
deriving DecidableEq

/-- The slice of the YAML configuration that collect_banned reads:
cfg["lint"]["banned_phrases"], cfg["forbidden"]["клише"] when it is a list,
and cfg["forbidden"]["лексика"] when it is a list. -/
structure Cfg where
  banned_phrases : List (List Char)
  cliches : Option (List (List Char))
  leksika : Option (List LexItem)
deriving DecidableEq

/-- The flattening loop over the forbidden lexicon: strings are appended,
nested lists are spliced, anything else is skipped. -/
def lexFlatten : List LexItem → List (List Char)
  | [] => []
  | LexItem.str s :: rest => s :: lexFlatten rest
  | LexItem.lst items :: rest => items ++ lexFlatten rest
  | LexItem.other :: rest => lexFlatten rest

/-- The banned-phrase candidates of collect_banned before deduplication, in
source order: the flat list, then the cliches, then the flattened lexicon. -/
def assembledBanned (cfg : Cfg) : List (List Char) :=
  cfg.banned_phrases ++
  (match cfg.cliches with | some l => l | none => []) ++
  (match cfg.leksika with | some items => lexFlatten items | none => [])

/-- One iteration of the deduplication loop of collect_banned: `acc` is the
pair of the output list and the seen normalized keys (the Python set of seen
keys is modeled as the list of keys accepted so far, in order). -/
def collectStep (acc : List (List Char) × List (List Char)) (p : List Char) :
    List (List Char) × List (List Char) :=
  if !(normalize p).isEmpty && !acc.2.contains (normalize p) then
    (acc.1 ++ [p], acc.2 ++ [normalize p])
  else acc

/-- collect_banned from tools/style_lint.py: deduplicate the assembled
candidates by normalized form, keeping the first occurrence with its
original casing and skipping phrases that normalize to the empty string. -/
def collect_banned (cfg : Cfg) : List (List Char) :=
  ((assembledBanned cfg).foldl collectStep ([], [])).1

/-- Finding severity levels. -/
inductive Level where
  | ERROR
  | WARN
  | INFO
deriving DecidableEq

/-- One finding dictionary of check_file: level, type, paragraph index,
optional sentence index, message. -/
structure Finding where
  level : Level
  ftype : String
  para : Nat
  sent : Option Nat
  msg : String
deriving DecidableEq

/-- The resolved rule parameters of check_file (after main has merged the
configuration defaults with the command-line overrides). -/
structure LintParams where
  sr : Nat × Nat
  maxSentLen : Nat
  maxParaSents : Nat
  passiveAllowed : Bool
  requireMetrics : Bool
deriving DecidableEq

/-- The sentence-length rule of check_file: WARN when the word count exceeds
the hard maximum, otherwise INFO when it falls outside the inclusive target
range, otherwise nothing. -/
def lenBlock (sr : Nat × Nat) (maxSentLen pi si : Nat) (s : List Char) : List Finding :=
  let wc := word_count s
  if maxSentLen < wc then
    [⟨Level.WARN, "sentence_len", pi, some si,
      Nat.repr wc ++ " слов (макс " ++ Nat.repr maxSentLen ++ ")."⟩]
  else if wc < sr.1 || sr.2 < wc then
    [⟨Level.INFO, "sentence_target", pi, some si,
      Nat.repr wc ++ " слов (целевой диапазон " ++ Nat.repr sr.1 ++ "–" ++ Nat.repr sr.2 ++ ")."⟩]
  else []

/-- The passive-voice rule of check_file. -/
def passiveBlock (passiveAllowed : Bool) (pi si : Nat) (s : List Char) : List Finding :=
  if !passiveAllowed && passiveMatch s then
    [⟨Level.WARN, "passive", pi, some si, "Подозрение на пассивный залог."⟩]
  else []

/-- The vague-claim rule of check_file: WARN when metrics are required, a
vague intensifier matches, and no metric is nearby. -/
def vagueBlock (requireMetrics : Bool) (pi si : Nat) (s : List Char) : List Finding :=
  if requireMetrics && vagueMatch s && !has_metric_nearby s then
    [⟨Level.WARN, "vague_no_metric", pi, some si, "Оценка без метрики рядом."⟩]
  else []

/-- The terminology rule of check_file. -/
def termBlock (pi si : Nat) (s : List Char) : List Finding :=
  if routerMatch s then
    [⟨Level.INFO, "terminology", pi, some si, "Используй рутер из глоссария."⟩]
  else []

/-- All findings check_file appends for one sentence, in source order. -/
def sentenceIssues (sr : Nat × Nat) (maxSentLen : Nat) (passiveAllowed requireMetrics : Bool)
    (pi si : Nat) (s : List Char) : List Finding :=
  lenBlock sr maxSentLen pi si s ++ passiveBlock passiveAllowed pi si s ++
  vagueBlock requireMetrics pi si s ++ termBlock pi si s

/-- The paragraph-length rule of check_file. -/
def paraLenBlock (maxParaSents pi : Nat) (sents : List (List Char)) : List Finding :=
  if maxParaSents < sents.length then
    [⟨Level.WARN, "paragraph_len", pi, none,
      "В абзаце " ++ Nat.repr sents.length ++ " предложений (макс " ++ Nat.repr maxParaSents ++ ")."⟩]
  else []

/-- The banned-phrase loop of check_file: one ERROR per banned phrase whose
nonempty normalized form occurs in the normalized paragraph. -/
def bannedBlock (banned : List (List Char)) (pi : Nat) (para : List Char) : List Finding :=
  let normPara := normalize para
  ((banned.zip (banned.map normalize)).map
    (fun pq =>
      if !pq.2.isEmpty && containsTxt pq.2 normPara then
        [⟨Level.ERROR, "banned", pi, none, "Запрещённая фраза: " ++ String.mk pq.1⟩]
      else [])).flatten

/-- All findings check_file appends for one paragraph, in source order:
paragraph length, then banned phrases, then the sentence findings sentence
by sentence. -/
def paragraphIssues (banned : List (List Char)) (params : LintParams) (pi : Nat)
    (para : List Char) : List Finding :=
  let sents := split_sentences para
  paraLenBlock params.maxParaSents pi sents ++
  bannedBlock banned pi para ++
  ((List.enumFrom 1 sents).map
    (fun p => sentenceIssues params.sr params.maxSentLen params.passiveAllowed
      params.requireMetrics pi p.1 p.2)).flatten

/-- TERMINOLOGY_KEYS from tools/style_lint.py. -/
def TERMINOLOGY_KEYS : List (List Char) :=
  [ "агент".toList, "оркестратор".toList, "планировщик".toList, "критик".toList,
    "редактор".toList, "рутер".toList, "память".toList, "контекстное_окно".toList,
    "RAG".toList, "инструмент".toList, "политика".toList, "JSON_схема".toList,
    "пайплайн".toList, "idempotency".toList, "телеметрия".toList, "артефакт".toList,
    "чеклист".toList, "дедупликация".toList, "грейдинг".toList ]

/-- The term-coverage scan of check_file: t.lower() in text.lower(). -/
def termCoverage (text : List Char) : List (List Char × Bool) :=
  TERMINOLOGY_KEYS.map (fun t => (t, containsTxt (t.map ruLower) (text.map ruLower)))

/-- The result dictionary of check_file. -/
structure FileResult where
  file : String
  issues : List Finding
  termCov : List (List Char × Bool)
deriving DecidableEq

/-- check_file from tools/style_lint.py, over the already-read text. -/
def check_file (fname : String) (cfg : Cfg) (params : LintParams) (text : List Char) :
    FileResult :=
  let paragraphs := split_paragraphs text
  let banned := collect_banned cfg
  ⟨fname,
   ((List.enumFrom 1 paragraphs).map (fun p => paragraphIssues banned params p.1 p.2)).flatten,
   termCoverage text⟩

/-- Rendering of a severity level. -/
def levelStr : Level → String
  | Level.ERROR => "ERROR"
  | Level.WARN => "WARN"
  | Level.INFO => "INFO"

/-- The report line render_md produces for one finding. -/
def findingLine (it : Finding) : String :=
  let loc :=
    match it.sent with
    | some si => " (абз. " ++ Nat.repr it.para ++ ", предл. " ++ Nat.repr si ++ ")"
    | none => " (абз. " ++ Nat.repr it.para ++ ")"
  "- **" ++ levelStr it.level ++ "**" ++ loc ++ ": " ++ it.msg

/-- The report section render_md produces for one file. -/
def fileLines (r : FileResult) : List String :=
  if r.issues.isEmpty then ["## " ++ r.file, "✔ Без замечаний.\n"]
  else
    let missing := (r.termCov.filter (fun tv => !tv.2)).map (fun tv => String.mk tv.1)
    ("## " ++ r.file) :: r.issues.map findingLine ++
    (if missing.isEmpty then []
     else ["", "_Подсказка_: не встречаются базовые термины: " ++ String.intercalate ", " missing]) ++
    [""]

/-- render_md from tools/style_lint.py: the report lines together with the
total number of ERROR findings, accumulated file by file. -/
def render_md (results : List FileResult) : List String × Nat :=
  results.foldl
    (fun acc r =>
      (acc.1 ++ fileLines r, acc.2 + r.issues.countP (fun it => it.level == Level.ERROR)))
    (["# Style Lint Report\n"], 0)

/-- The exit status of main over the already-resolved inputs: 2 when the
configuration document is missing (load_cfg) or no targets were found, else
1 when render_md counted any ERROR finding, else 0.  `targets` carries each
discovered file name with its text. -/
def mainExit (cfgPresent : Bool) (cfg : Cfg) (params : LintParams)
    (targets : List (String × List Char)) : Nat :=
  if !cfgPresent then 2
  else if targets.isEmpty then 2
  else
    let results := targets.map (fun t => check_file t.1 cfg params t.2)
    if (render_md results).2 ≠ 0 then 1 else 0

/-- The number of ERROR-severity findings across a list of results. -/
def errorTotal (results : List FileResult) : Nat :=
  (results.map (fun r => r.issues.countP (fun it => it.level == Level.ERROR))).sum

/-- The canonical rank of a finding type in the per-paragraph emission order
of check_file. -/
def ruleRank (t : String) : Nat :=
  if t == "paragraph_len" then 0
  else if t == "banned" then 1
  else if t == "sentence_len" || t == "sentence_target" then 2
  else if t == "passive" then 3
  else if t == "vague_no_metric" then 4
  else 5

/-- The emission key of a finding: paragraph index, sentence index (0 for
paragraph-level findings), rule rank. -/
def findingKey (f : Finding) : Nat × Nat × Nat := (f.para, f.sent.getD 0, ruleRank f.ftype)

/-- Lexicographic order on emission keys. -/
def keyLeB (a b : Finding) : Bool :=
  let ka := findingKey a
  let kb := findingKey b
  decide (ka.1 < kb.1) ||
  (ka.1 == kb.1 && (decide (ka.2.1 < kb.2.1) ||
    (ka.2.1 == kb.2.1 && decide (ka.2.2 ≤ kb.2.2))))

/-- No naive split point inside the text: no whitespace character directly
preceded by terminal punctuation. -/
def noSplitPt : List Char → Bool
  | a :: b :: t => !(isTerm a && isSpaceCh b) && noSplitPt (b :: t)
  | _ => true

/-- The text is nonempty and ends with terminal punctuation. -/
def lastIsTerm (l : List Char) : Bool :=
  match l.getLast? with
  | some c => isTerm c
  | none => false

/-- An uppercase (capital) letter of the repertoire. -/
def isCapital (c : Char) : Bool :=
  ('A' ≤ c && c ≤ 'Z') || (0x410 ≤ c.toNat && c.toNat ≤ 0x42F) || c.toNat == 0x401

/-- A finding without its free-text message: level, type, paragraph index,
sentence index. -/
def findingView (f : Finding) : Level × String × Nat × Option Nat :=
  (f.level, f.ftype, f.para, f.sent)

/-- A 22-one-letter-word sentence, and its shorter variants, for witnesses. -/
def wordsTxt (n : Nat) : List Char := (List.replicate n ['a', ' ']).flatten

theorem isHorizWS_ne_nl {c : Char} (h : isHorizWS c = true) : (c == '\n') = false := by
  simp [isHorizWS] at h
  rcases h with h | h <;> simp [h]

theorem noTrailWS_tail {c : Char} {l : List Char} (h : noTrailWS (c :: l) = true) :
    noTrailWS l = true := by
  simp [noTrailWS] at h
  exact h.2

theorem noTrailWS_append_right {a b : List Char} (h : noTrailWS (a ++ b) = true) :
    noTrailWS b = true := by
  induction a with
  | nil => exact h
  | cons c cs ih => exact ih (noTrailWS_tail h)

theorem noTrailWS_cons_nonws {c : Char} {l : List Char} (hc : isHorizWS c = false)
    (h : noTrailWS l = true) : noTrailWS (c :: l) = true := by
  simp [noTrailWS, wsOk, hc, h]

theorem allWS_noTrail_nil {pend : List Char} (hall : pend.all isHorizWS = true)
    (h : noTrailWS pend = true) : pend = [] := by
  induction pend with
  | nil => rfl
  | cons c cs ih =>
    simp only [List.all_cons, Bool.and_eq_true] at hall
    have hcs : cs = [] := ih hall.2 (noTrailWS_tail h)
    subst hcs
    simp [noTrailWS, wsOk, hall.1] at h

theorem allWS_noTrail_nl_nil {pend cs : List Char} (hall : pend.all isHorizWS = true)
    (h : noTrailWS (pend ++ '\n' :: cs) = true) : pend = [] := by
  induction pend with
  | nil => rfl
  | cons c rest ih =>
    simp only [List.all_cons, Bool.and_eq_true] at hall
    have hrest : rest = [] := ih hall.2 (noTrailWS_tail h)
    subst hrest
    simp [noTrailWS, wsOk, hall.1, firstNl] at h

theorem stripTrailAux_of_noTrail (l : List Char) : ∀ pend : List Char,
    pend.all isHorizWS = true → noTrailWS (pend ++ l) = true →
    stripTrailAux pend l = pend ++ l := by
  induction l with
  | nil =>
    intro pend hall h
    have : pend = [] := allWS_noTrail_nil hall (by simpa using h)
    subst this
    rfl
  | cons c cs ih =>
    intro pend hall h
    by_cases hws : isHorizWS c = true
    · rw [stripTrailAux, if_pos hws]
      have h1 : (pend ++ [c]).all isHorizWS = true := by
        simp only [List.all_append, Bool.and_eq_true]
        exact ⟨hall, by simp [hws]⟩
      have h2 : noTrailWS ((pend ++ [c]) ++ cs) = true := by
        simpa [List.append_assoc] using h
      rw [ih (pend ++ [c]) h1 h2]
      simp
    · rw [stripTrailAux, if_neg hws]
      by_cases hnl : (c == '\n') = true
      · have hc : c = '\n' := by simpa using hnl
        subst hc
        have hp : pend = [] := allWS_noTrail_nl_nil hall h
        subst hp
        simp only [List.nil_append] at h ⊢
        rw [if_pos hnl, ih [] rfl (noTrailWS_tail h)]
        simp
      · rw [if_neg hnl]
        have htail : noTrailWS cs = true := by
          have := noTrailWS_append_right (a := pend) h
          exact noTrailWS_tail this
        rw [ih [] rfl (by simpa using htail)]
        simp

theorem noTrail_flush {pend : List Char} {c : Char} {z : List Char}
    (hall : pend.all isHorizWS = true) (hc : (c == '\n') = false)
    (h : noTrailWS (c :: z) = true) : noTrailWS (pend ++ c :: z) = true := by
  induction pend with
  | nil => simpa using h
  | cons p rest ih =>
    simp only [List.all_cons, Bool.and_eq_true] at hall
    have htail := ih hall.2
    simp only [List.cons_append]
    rw [noTrailWS]
    have hwsOk : wsOk p (rest ++ c :: z) = true := by
      cases rest with
      | nil => simp [wsOk, firstNl, hc]
      | cons r rest2 =>
        have hr : isHorizWS r = true := by
          simp only [List.all_cons, Bool.and_eq_true] at hall
          exact hall.2.1
        simp [wsOk, firstNl, isHorizWS_ne_nl hr]
    simp [hwsOk, htail]

theorem noTrail_stripTrailAux (l : List Char) : ∀ pend : List Char,
    pend.all isHorizWS = true → noTrailWS (stripTrailAux pend l) = true := by
  induction l with
  | nil => intro pend _; rfl
  | cons c cs ih =>
    intro pend hall
    by_cases hws : isHorizWS c = true
    · rw [stripTrailAux, if_pos hws]
      exact ih (pend ++ [c]) (by simp_all)
    · rw [stripTrailAux, if_neg hws]
      by_cases hnl : (c == '\n') = true
      · rw [if_pos hnl]
        have hc : c = '\n' := by simpa using hnl
        subst hc
        exact noTrailWS_cons_nonws (by decide) (ih [] rfl)
      · rw [if_neg hnl]
        exact noTrail_flush hall (by simpa using hnl)
          (noTrailWS_cons_nonws (by simpa using hws) (ih [] rfl))

theorem ok3_tail {a : Char} {z : List Char} (h : ok3 (a :: z) = true) : ok3 z = true := by
  match z with
  | [] => rfl
  | [b] => rfl
  | b :: c :: t =>
    rw [ok3, Bool.and_eq_true] at h
    exact h.2

theorem ok3_append_right {a b : List Char} (h : ok3 (a ++ b) = true) : ok3 b = true := by
  induction a with
  | nil => exact h
  | cons c cs ih => exact ih (ok3_tail h)

theorem ok3_cons_nonnl {c : Char} {z : List Char} (hc : (c == '\n') = false)
    (h : ok3 z = true) : ok3 (c :: z) = true := by
  match z with
  | [] => rfl
  | [b] => rfl
  | b :: d :: t =>
    rw [ok3, Bool.and_eq_true]
    exact ⟨by simp [hc], h⟩

theorem ok3_nl_cons {c : Char} {z : List Char} (hc : (c == '\n') = false)
    (h : ok3 (c :: z) = true) : ok3 ('\n' :: c :: z) = true := by
  match z with
  | [] => rfl
  | b :: t =>
    rw [ok3, Bool.and_eq_true]
    exact ⟨by simp [hc], h⟩

theorem ok3_run_cons {c : Char} {z : List Char} {k : Nat} (hk : k ≤ 2)
    (hc : (c == '\n') = false) (h : ok3 z = true) :
    ok3 (List.replicate k '\n' ++ c :: z) = true := by
  have h0 : ok3 (c :: z) = true := ok3_cons_nonnl hc h
  have h1 : ok3 ('\n' :: c :: z) = true := ok3_nl_cons hc h0
  interval_cases k
  · simpa using h0
  · simpa using h1
  · simp only [List.replicate, List.cons_append, List.nil_append]
    rw [ok3, Bool.and_eq_true]
    exact ⟨by simp [hc], h1⟩

theorem ok3_collapseAux (l : List Char) : ∀ run : Nat, ok3 (collapseAux l run) = true := by
  induction l with
  | nil =>
    intro run
    rw [collapseAux, emitRun]
    by_cases h3 : 3 ≤ run
    · rw [if_pos h3]; rfl
    · rw [if_neg h3]
      interval_cases run <;> rfl
  | cons c cs ih =>
    intro run
    rw [collapseAux]
    by_cases hnl : (c == '\n') = true
    · rw [if_pos hnl]; exact ih (run + 1)
    · rw [if_neg hnl]
      rw [emitRun]
      by_cases h3 : 3 ≤ run
      · rw [if_pos h3]
        exact ok3_run_cons (by omega) (by simpa using hnl) (ih 0)
      · rw [if_neg h3]
        exact ok3_run_cons (by omega) (by simpa using hnl) (ih 0)

theorem collapseAux_of_ok3 (l : List Char) : ∀ run : Nat, run ≤ 2 →
    ok3 (List.replicate run '\n' ++ l) = true →
    collapseAux l run = List.replicate run '\n' ++ l := by
  induction l with
  | nil =>
    intro run hrun _
    rw [collapseAux, emitRun, if_neg (by omega)]
    simp
  | cons c cs ih =>
    intro run hrun h
    rw [collapseAux]
    by_cases hnl : (c == '\n') = true
    · have hc : c = '\n' := by simpa using hnl
      subst hc
      rw [if_pos hnl]
      have hshift : List.replicate run '\n' ++ '\n' :: cs
          = List.replicate (run + 1) '\n' ++ cs := by
        rw [List.replicate_succ']
        simp
      by_cases hr2 : run ≤ 1
      · rw [ih (run + 1) (by omega) (by rw [← hshift]; exact h), hshift]
      · exfalso
        have hr : run = 2 := by omega
        subst hr
        simp only [List.replicate, List.cons_append, List.nil_append] at h
        rw [ok3] at h
        simp at h
    · rw [if_neg hnl]
      have hcs : ok3 cs = true := ok3_tail (ok3_append_right h)
      rw [ih 0 (by omega) (by simpa using hcs)]
      rw [emitRun, if_neg (by omega)]
      simp

theorem collapseAux_ne_nil (l : List Char) : ∀ run : Nat, l ≠ [] ∨ 1 ≤ run →
    collapseAux l run ≠ [] := by
  induction l with
  | nil =>
    intro run h
    rcases h with h | h
    · exact absurd rfl h
    · rw [collapseAux, emitRun]
      by_cases h3 : 3 ≤ run
      · rw [if_pos h3]; simp
      · rw [if_neg h3]
        intro hc
        have hlen := congrArg List.length hc
        simp at hlen
        omega
  | cons c cs ih =>
    intro run _
    rw [collapseAux]
    by_cases hnl : (c == '\n') = true
    · rw [if_pos hnl]; exact ih (run + 1) (Or.inr (by omega))
    · rw [if_neg hnl]; simp

theorem firstNl_collapseAux_pos (l : List Char) : ∀ run : Nat, 1 ≤ run →
    firstNl (collapseAux l run) = true := by
  induction l with
  | nil =>
    intro run hrun
    rw [collapseAux, emitRun]
    by_cases h3 : 3 ≤ run
    · rw [if_pos h3]; rfl
    · rw [if_neg h3]
      interval_cases run <;> rfl
  | cons c cs ih =>
    intro run hrun
    rw [collapseAux]
    by_cases hnl : (c == '\n') = true
    · rw [if_pos hnl]; exact ih (run + 1) (by omega)
    · rw [if_neg hnl]
      rw [emitRun]
      by_cases h3 : 3 ≤ run
      · rw [if_pos h3]; rfl
      · rw [if_neg h3]
        interval_cases run <;> rfl

theorem firstNl_collapseNL (l : List Char) : firstNl (collapseNL l) = firstNl l := by
  rw [collapseNL]
  cases l with
  | nil => rfl
  | cons c cs =>
    rw [collapseAux]
    by_cases hnl : (c == '\n') = true
    · rw [if_pos hnl]
      rw [firstNl_collapseAux_pos cs 1 (by omega)]
      simp [firstNl, hnl]
    · rw [if_neg hnl]
      simp [emitRun, firstNl, hnl]

theorem noTrail_repl_append {z : List Char} (k : Nat) (h : noTrailWS z = true) :
    noTrailWS (List.replicate k '\n' ++ z) = true := by
  induction k with
  | zero => simpa using h
  | succ n ih =>
    rw [List.replicate_succ, List.cons_append]
    exact noTrailWS_cons_nonws (by decide) ih

theorem noTrail_collapseAux (l : List Char) : ∀ run : Nat, noTrailWS l = true →
    noTrailWS (collapseAux l run) = true := by
  induction l with
  | nil =>
    intro run _
    rw [collapseAux, emitRun]
    have : ∀ k : Nat, noTrailWS (List.replicate k '\n') = true := fun k => by
      simpa using noTrail_repl_append (z := []) k rfl
    by_cases h3 : 3 ≤ run
    · rw [if_pos h3]; exact this 2
    · rw [if_neg h3]; exact this run
  | cons c cs ih =>
    intro run h
    rw [collapseAux]
    by_cases hnl : (c == '\n') = true
    · rw [if_pos hnl]; exact ih (run + 1) (noTrailWS_tail h)
    · rw [if_neg hnl]
      have hcs : noTrailWS (collapseAux cs 0) = true := ih 0 (noTrailWS_tail h)
      have hwsOk : wsOk c (collapseAux cs 0) = true := by
        by_cases hws : isHorizWS c = true
        · have h1 : wsOk c cs = true := by
            rw [noTrailWS, Bool.and_eq_true] at h
            exact h.1
          simp only [wsOk, hws, Bool.not_true, Bool.false_or, Bool.and_eq_true,
            Bool.not_eq_true'] at h1 ⊢
          obtain ⟨hne, hfn⟩ := h1
          constructor
          · have : cs ≠ [] := by
              cases cs
              · simp at hne
              · simp
            have := collapseAux_ne_nil cs 0 (Or.inl this)
            simpa [List.isEmpty_iff] using this
          · rw [show collapseAux cs 0 = collapseNL cs from rfl, firstNl_collapseNL]
            exact hfn
        · simp [wsOk, hws]
      have hcons : noTrailWS (c :: collapseAux cs 0) = true := by
        rw [noTrailWS, Bool.and_eq_true]
        exact ⟨hwsOk, hcs⟩
      rw [emitRun]
      by_cases h3 : 3 ≤ run
      · rw [if_pos h3]; exact noTrail_repl_append 2 hcons
      · rw [if_neg h3]; exact noTrail_repl_append run hcons

theorem noTrail_stripTrailingWS (l : List Char) : noTrailWS (stripTrailingWS l) = true :=
  noTrail_stripTrailAux l [] rfl

theorem stripTrailingWS_of_noTrail {l : List Char} (h : noTrailWS l = true) :
    stripTrailingWS l = l :=
  stripTrailAux_of_noTrail l [] rfl (by simpa using h)

theorem collapseNL_of_ok3 {l : List Char} (h : ok3 l = true) : collapseNL l = l := by
  simpa using collapseAux_of_ok3 l 0 (by omega) (by simpa using h)

/-- C2: safe_autofix is idempotent, and it is the identity on any text with
no trailing horizontal whitespace on any line and no run of three or more
consecutive newlines. -/
theorem safe_autofix_idempotent :
    (∀ x : List Char, safe_autofix (safe_autofix x) = safe_autofix x) ∧
    (∀ x : List Char, noTrailWS x = true → ok3 x = true → safe_autofix x = x) := by
  have fix : ∀ x : List Char, noTrailWS x = true → ok3 x = true → safe_autofix x = x := by
    intro x h1 h2
    rw [safe_autofix, stripTrailingWS_of_noTrail h1, collapseNL_of_ok3 h2]
  refine ⟨fun x => ?_, fix⟩
  have h1 : noTrailWS (safe_autofix x) = true := by
    rw [safe_autofix]
    exact noTrail_collapseAux _ 0 (noTrail_stripTrailingWS x)
  have h2 : ok3 (safe_autofix x) = true := ok3_collapseAux _ 0
  exact fix _ h1 h2

/-- Witness for C2 at a concrete text. -/
theorem safe_autofix_idempotent_witness :
    noTrailWS ('a' :: 'b' :: '\n' :: 'c' :: []) = true ∧
    ok3 ('a' :: 'b' :: '\n' :: 'c' :: []) = true ∧
    safe_autofix ('a' :: 'b' :: '\n' :: 'c' :: []) = ('a' :: 'b' :: '\n' :: 'c' :: []) :=
  ⟨by decide, by decide, safe_autofix_idempotent.2 _ (by decide) (by decide)⟩

theorem horiz_isSpace {c : Char} (h : isHorizWS c = true) : isSpaceCh c = true := by
  simp [isHorizWS] at h
  rcases h with h | h <;> simp [isSpaceCh, h]

theorem filterNW_allws {pend : List Char} (h : pend.all isHorizWS = true) :
    filterNW pend = [] := by
  induction pend with
  | nil => rfl
  | cons c cs ih =>
    simp only [List.all_cons, Bool.and_eq_true] at h
    have h2 := ih h.2
    rw [filterNW] at h2 ⊢
    rw [List.filter_cons]
    simp [horiz_isSpace h.1, h2]

theorem filterNW_repl_nl (k : Nat) : filterNW (List.replicate k '\n') = [] := by
  induction k with
  | zero => rfl
  | succ n ih =>
    rw [List.replicate_succ, filterNW, List.filter_cons]
    rw [filterNW] at ih
    simp [show isSpaceCh '\n' = true by decide, ih]

theorem sublist_stripTrailAux (l : List Char) : ∀ pend : List Char,
    (stripTrailAux pend l).Sublist (pend ++ l) := by
  induction l with
  | nil => intro pend; exact List.nil_sublist _
  | cons c cs ih =>
    intro pend
    rw [stripTrailAux]
    by_cases hws : isHorizWS c = true
    · rw [if_pos hws]
      have := ih (pend ++ [c])
      simpa [List.append_assoc] using this
    · rw [if_neg hws]
      by_cases hnl : (c == '\n') = true
      · rw [if_pos hnl]
        have hc : c = '\n' := by simpa using hnl
        subst hc
        exact List.Sublist.trans (List.Sublist.cons₂ _ (by simpa using ih []))
          (List.sublist_append_right pend _)
      · rw [if_neg hnl]
        exact List.Sublist.append_left (List.Sublist.cons₂ _ (by simpa using ih [])) pend

theorem emitRun_sublist (run : Nat) : (emitRun run).Sublist (List.replicate run '\n') := by
  rw [emitRun]
  by_cases h3 : 3 ≤ run
  · rw [if_pos h3]
    exact (List.replicate_sublist_replicate '\n').mpr (by omega)
  · rw [if_neg h3]

theorem sublist_collapseAux (l : List Char) : ∀ run : Nat,
    (collapseAux l run).Sublist (List.replicate run '\n' ++ l) := by
  induction l with
  | nil =>
    intro run
    simpa using emitRun_sublist run
  | cons c cs ih =>
    intro run
    rw [collapseAux]
    by_cases hnl : (c == '\n') = true
    · rw [if_pos hnl]
      have hc : c = '\n' := by simpa using hnl
      subst hc
      have := ih (run + 1)
      rw [List.replicate_succ'] at this
      simpa [List.append_assoc] using this
    · rw [if_neg hnl]
      exact List.Sublist.append (emitRun_sublist run)
        (List.Sublist.cons₂ _ (by simpa using ih 0))

theorem filterNW_stripTrailAux (l : List Char) : ∀ pend : List Char,
    pend.all isHorizWS = true → filterNW (stripTrailAux pend l) = filterNW l := by
  induction l with
  | nil => intro pend _; rfl
  | cons c cs ih =>
    intro pend hall
    rw [stripTrailAux]
    by_cases hws : isHorizWS c = true
    · rw [if_pos hws, ih (pend ++ [c]) (by simp_all)]
      simp [filterNW, List.filter_cons, horiz_isSpace hws]
    · rw [if_neg hws]
      by_cases hnl : (c == '\n') = true
      · rw [if_pos hnl]
        have hc : c = '\n' := by simpa using hnl
        subst hc
        have h2 := ih [] rfl
        simp only [filterNW] at h2 ⊢
        simp only [List.filter_cons]
        simp [show isSpaceCh '\n' = true by decide, h2]
      · rw [if_neg hnl]
        have h2 := ih [] rfl
        simp only [filterNW] at h2 ⊢
        simp only [List.filter_append, List.filter_cons]
        rw [show List.filter (fun c => !isSpaceCh c) pend = [] from by
          have := filterNW_allws hall
          rwa [filterNW] at this]
        simp [h2]

theorem filterNW_collapseAux (l : List Char) : ∀ run : Nat,
    filterNW (collapseAux l run) = filterNW l := by
  induction l with
  | nil =>
    intro run
    rw [collapseAux, emitRun]
    by_cases h3 : 3 ≤ run
    · rw [if_pos h3]; exact filterNW_repl_nl 2
    · rw [if_neg h3]; exact filterNW_repl_nl run
  | cons c cs ih =>
    intro run
    rw [collapseAux]
    by_cases hnl : (c == '\n') = true
    · rw [if_pos hnl]
      have hc : c = '\n' := by simpa using hnl
      subst hc
      have h2 := ih (run + 1)
      simp only [filterNW] at h2 ⊢
      simp only [List.filter_cons]
      simp [show isSpaceCh '\n' = true by decide, h2]
    · rw [if_neg hnl]
      have h2 := ih 0
      simp only [filterNW] at h2 ⊢
      simp only [List.filter_append, List.filter_cons]
      rw [show List.filter (fun c => !isSpaceCh c) (emitRun run) = [] from by
        have := emitRun_sublist run
        have h4 := List.Sublist.filter (fun c => !isSpaceCh c) this
        have h3 : filterNW (List.replicate run '\n') = [] := filterNW_repl_nl run
        rw [filterNW] at h3
        rw [h3] at h4
        exact List.sublist_nil.mp h4]
      simp [h2]

theorem wordsAux_wsFront :
    ∀ (ws : List Char), (∀ c ∈ ws, isSpaceCh c = true) → ws ≠ [] →
      ∀ (rest cur : List Char),
        wordsAux cur (ws ++ rest) =
          (if cur.isEmpty then [] else [cur.reverse]) ++ wordsAux [] rest := by
  intro ws
  induction ws with
  | nil => intro _ h; exact absurd rfl h
  | cons a t ih =>
    intro hws _ rest cur
    have ha : isSpaceCh a = true := hws a (List.mem_cons_self a t)
    rw [List.cons_append]
    simp only [wordsAux]
    rw [if_pos ha]
    by_cases ht : t = []
    · subst ht
      rw [List.nil_append]
      by_cases hc : cur.isEmpty <;> simp [hc]
    · have h2 := ih (fun c hc => hws c (List.mem_cons_of_mem a hc)) ht rest []
      simp only [List.isEmpty_nil, if_true, List.nil_append] at h2
      rw [h2]
      by_cases hc : cur.isEmpty <;> simp [hc]

theorem wordsAux_stripTrailAux :
    ∀ (l pend cur : List Char), (∀ c ∈ pend, isHorizWS c = true) →
      wordsAux cur (stripTrailAux pend l) = wordsAux cur (pend ++ l) := by
  intro l
  induction l with
  | nil =>
    intro pend cur hp
    rw [stripTrailAux, List.append_nil]
    by_cases hpe : pend = []
    · subst hpe; rfl
    · have h := wordsAux_wsFront pend (fun c hc => horiz_isSpace (hp c hc)) hpe [] cur
      rw [List.append_nil] at h
      rw [h]
      by_cases hc : cur.isEmpty <;> simp [wordsAux, hc]
  | cons c cs ih =>
    intro pend cur hp
    by_cases hh : isHorizWS c = true
    · rw [stripTrailAux, if_pos hh]
      rw [ih (pend ++ [c]) cur (by
        intro d hd
        rcases List.mem_append.mp hd with hd | hd
        · exact hp d hd
        · rw [List.mem_singleton.mp hd]; exact hh)]
      rw [List.append_assoc, List.singleton_append]
    · rw [stripTrailAux, if_neg hh]
      by_cases hnl : (c == '\n') = true
      · rw [if_pos hnl]
        have hc : c = '\n' := by simpa using hnl
        subst hc
        have hfront := wordsAux_wsFront (pend ++ ['\n'])
          (by
            intro d hd
            rcases List.mem_append.mp hd with hd | hd
            · exact horiz_isSpace (hp d hd)
            · rw [List.mem_singleton.mp hd]; rfl)
          (by simp) cs cur
        rw [List.append_assoc, List.singleton_append] at hfront
        rw [hfront]
        simp only [wordsAux]
        rw [if_pos (show isSpaceCh '\n' = true from rfl)]
        rw [ih [] [] (fun d hd => absurd hd (List.not_mem_nil d)),
          List.nil_append]
        by_cases hc : cur.isEmpty <;> simp [hc]
      · rw [if_neg hnl]
        by_cases hsp : isSpaceCh c = true
        · have hfront := wordsAux_wsFront (pend ++ [c])
            (by
              intro d hd
              rcases List.mem_append.mp hd with hd | hd
              · exact horiz_isSpace (hp d hd)
              · rw [List.mem_singleton.mp hd]; exact hsp)
            (by simp) (stripTrailAux [] cs) cur
          rw [List.append_assoc, List.singleton_append] at hfront
          rw [hfront]
          have hfront2 := wordsAux_wsFront (pend ++ [c])
            (by
              intro d hd
              rcases List.mem_append.mp hd with hd | hd
              · exact horiz_isSpace (hp d hd)
              · rw [List.mem_singleton.mp hd]; exact hsp)
            (by simp) cs cur
          rw [List.append_assoc, List.singleton_append] at hfront2
          rw [hfront2]
          rw [ih [] [] (fun d hd => absurd hd (List.not_mem_nil d)), List.nil_append]
        · by_cases hpe : pend = []
          · subst hpe
            rw [List.nil_append, List.nil_append]
            simp only [wordsAux]
            rw [if_neg hsp, if_neg hsp]
            rw [ih [] (c :: cur) (fun d hd => absurd hd (List.not_mem_nil d)),
              List.nil_append]
          · have hfront := wordsAux_wsFront pend
              (fun d hd => horiz_isSpace (hp d hd)) hpe (c :: stripTrailAux [] cs) cur
            rw [hfront]
            have hfront2 := wordsAux_wsFront pend
              (fun d hd => horiz_isSpace (hp d hd)) hpe (c :: cs) cur
            rw [hfront2]
            simp only [wordsAux]
            rw [if_neg hsp, if_neg hsp]
            rw [ih [] [c] (fun d hd => absurd hd (List.not_mem_nil d)),
              List.nil_append]

theorem replicate_nl_ne_nil {k : Nat} (hk : k ≠ 0) : List.replicate k '\n' ≠ [] := by
  intro hcon
  have hlen := congrArg List.length hcon
  rw [List.length_replicate, List.length_nil] at hlen
  exact hk hlen

theorem emit_ne_nil {run : Nat} (hr : run ≠ 0) :
    List.replicate (if 3 ≤ run then 2 else run) '\n' ≠ [] := by
  apply replicate_nl_ne_nil
  split <;> omega

theorem mem_replicate_nl_space {k : Nat} :
    ∀ d ∈ List.replicate k '\n', isSpaceCh d = true := by
  intro d hd
  rw [List.eq_of_mem_replicate hd]
  rfl

theorem wordsAux_collapseAux :
    ∀ (l : List Char) (run : Nat) (cur : List Char),
      wordsAux cur (collapseAux l run) = wordsAux cur (List.replicate run '\n' ++ l) := by
  intro l
  induction l with
  | nil =>
    intro run cur
    rw [collapseAux, emitRun, List.append_nil]
    by_cases hr : run = 0
    · subst hr; rfl
    · have h1 := wordsAux_wsFront (List.replicate (if 3 ≤ run then 2 else run) '\n')
        mem_replicate_nl_space (emit_ne_nil hr) [] cur
      have h2 := wordsAux_wsFront (List.replicate run '\n')
        mem_replicate_nl_space (replicate_nl_ne_nil hr) [] cur
      rw [List.append_nil] at h1 h2
      rw [h1, h2]
  | cons c cs ih =>
    intro run cur
    by_cases hnl : (c == '\n') = true
    · rw [collapseAux, if_pos hnl, ih]
      have hc : c = '\n' := by simpa using hnl
      subst hc
      rw [show List.replicate run '\n' ++ '\n' :: cs =
        List.replicate (run + 1) '\n' ++ cs from by
          rw [List.replicate_succ' run '\n', List.append_assoc, List.singleton_append]]
    · rw [collapseAux, if_neg hnl, emitRun]
      by_cases hr : run = 0
      · subst hr
        rw [show (if 3 ≤ 0 then 2 else 0) = 0 from rfl]
        simp only [List.replicate_zero, List.nil_append]
        by_cases hsp : isSpaceCh c = true
        · simp only [wordsAux]
          rw [if_pos hsp, if_pos hsp]
          rw [ih 0 []]
          simp only [List.replicate_zero, List.nil_append]
        · simp only [wordsAux]
          rw [if_neg hsp, if_neg hsp]
          rw [ih 0 (c :: cur)]
          simp only [List.replicate_zero, List.nil_append]
      · rw [wordsAux_wsFront _ mem_replicate_nl_space (emit_ne_nil hr)
          (c :: collapseAux cs 0) cur]
        rw [wordsAux_wsFront _ mem_replicate_nl_space (replicate_nl_ne_nil hr)
          (c :: cs) cur]
        by_cases hsp : isSpaceCh c = true
        · simp only [wordsAux]
          rw [if_pos hsp, if_pos hsp]
          rw [List.isEmpty_nil, if_pos rfl, if_pos rfl]
          rw [ih 0 []]
          simp only [List.replicate_zero, List.nil_append]
        · simp only [wordsAux]
          rw [if_neg hsp, if_neg hsp]
          rw [ih 0 [c]]
          simp only [List.replicate_zero, List.nil_append]

theorem count_nl_horiz (pend : List Char) (hp : ∀ c ∈ pend, isHorizWS c = true) :
    pend.count '\n' = 0 := by
  rw [List.count_eq_zero]
  intro hmem
  have := hp '\n' hmem
  exact absurd this (by decide)

theorem count_nl_stripTrailAux :
    ∀ (l pend : List Char), (∀ c ∈ pend, isHorizWS c = true) →
      (stripTrailAux pend l).count '\n' = l.count '\n' := by
  intro l
  induction l with
  | nil => intro pend _; rfl
  | cons c cs ih =>
    intro pend hp
    by_cases hh : isHorizWS c = true
    · rw [stripTrailAux, if_pos hh]
      rw [ih (pend ++ [c]) (by
        intro d hd
        rcases List.mem_append.mp hd with hd | hd
        · exact hp d hd
        · rw [List.mem_singleton.mp hd]; exact hh)]
      rw [List.count_cons]
      rw [isHorizWS_ne_nl hh]
      simp
    · rw [stripTrailAux, if_neg hh]
      by_cases hnl : (c == '\n') = true
      · rw [if_pos hnl]
        rw [List.count_cons, List.count_cons]
        rw [ih [] (fun d hd => absurd hd (List.not_mem_nil d))]
        rw [hnl]
        simp
      · rw [if_neg hnl]
        rw [List.count_append, List.count_cons, List.count_cons]
        rw [ih [] (fun d hd => absurd hd (List.not_mem_nil d))]
        rw [count_nl_horiz pend hp]
        simp

theorem nlRunsAux_replicate (k : Nat) :
    ∀ (rest : List Char) (acc : Nat),
      nlRunsAux (List.replicate k '\n' ++ rest) acc = nlRunsAux rest (acc + k) := by
  induction k with
  | zero => intro rest acc; rfl
  | succ n ih =>
    intro rest acc
    rw [List.replicate_succ, List.cons_append]
    rw [show nlRunsAux ('\n' :: (List.replicate n '\n' ++ rest)) acc =
      nlRunsAux (List.replicate n '\n' ++ rest) (acc + 1) from by
        simp only [nlRunsAux]; rw [if_pos (show (('\n' == '\n') = true) from rfl)]]
    rw [ih rest (acc + 1)]
    congr 1
    omega

theorem nlRuns_collapseAux :
    ∀ (l : List Char) (run : Nat),
      nlRunsAux (collapseAux l run) 0 = (nlRunsAux l run).map (fun n => min n 2) := by
  intro l
  induction l with
  | nil =>
    intro run
    rw [collapseAux, emitRun]
    rw [show List.replicate (if 3 ≤ run then 2 else run) '\n' =
      List.replicate (if 3 ≤ run then 2 else run) '\n' ++ [] from
        (List.append_nil _).symm]
    rw [nlRunsAux_replicate]
    by_cases hr : run = 0
    · subst hr; rfl
    · have hk : ¬(((0 + if 3 ≤ run then 2 else run) == 0) = true) := by
        simp only [Nat.zero_add]
        intro hcon
        have h0 : (if 3 ≤ run then 2 else run) = 0 := by simpa using hcon
        split at h0 <;> omega
      have hrun : ¬((run == 0) = true) := by simpa using hr
      rw [nlRunsAux, nlRunsAux, if_neg hk, if_neg hrun]
      simp only [List.map_cons, List.map_nil, Nat.zero_add]
      have hmin : (if 3 ≤ run then 2 else run) = min run 2 := by
        by_cases h3 : 3 ≤ run
        · rw [if_pos h3, min_eq_right (by omega : 2 ≤ run)]
        · rw [if_neg h3, min_eq_left (by omega : run ≤ 2)]
      rw [hmin]
  | cons c cs ih =>
    intro run
    by_cases hnl : (c == '\n') = true
    · rw [collapseAux, if_pos hnl, ih]
      rw [show nlRunsAux (c :: cs) run = nlRunsAux cs (run + 1) from by
        simp only [nlRunsAux]; rw [if_pos hnl]]
    · rw [collapseAux, if_neg hnl, emitRun, nlRunsAux_replicate]
      rw [show nlRunsAux (c :: collapseAux cs 0)
          (0 + if 3 ≤ run then 2 else run) =
        (if ((0 + if 3 ≤ run then 2 else run) == 0) = true
         then nlRunsAux (collapseAux cs 0) 0
         else (0 + if 3 ≤ run then 2 else run) :: nlRunsAux (collapseAux cs 0) 0) from by
          simp only [nlRunsAux]; rw [if_neg hnl]]
      rw [show nlRunsAux (c :: cs) run =
        (if (run == 0) = true then nlRunsAux cs 0 else run :: nlRunsAux cs 0) from by
          simp only [nlRunsAux]; rw [if_neg hnl]]
      by_cases hr : run = 0
      · subst hr
        rw [if_pos (show (((0 + if 3 ≤ 0 then 2 else 0) == 0) = true) from by decide)]
        rw [if_pos (show ((((0 : Nat)) == 0) = true) from by decide)]
        exact ih 0
      · have hk : ¬(((0 + if 3 ≤ run then 2 else run) == 0) = true) := by
          simp only [Nat.zero_add]
          intro hcon
          have h0 : (if 3 ≤ run then 2 else run) = 0 := by simpa using hcon
          split at h0 <;> omega
        rw [if_neg hk, if_neg (show ¬((run == 0) = true) from by simpa using hr)]
        simp only [List.map_cons, Nat.zero_add]
        rw [ih]
        have hmin : (if 3 ≤ run then 2 else run) = min run 2 := by
          by_cases h3 : 3 ≤ run
          · rw [if_pos h3, min_eq_right (by omega : 2 ≤ run)]
          · rw [if_neg h3, min_eq_left (by omega : run ≤ 2)]
        rw [hmin]

theorem sum_nlRunsAux :
    ∀ (l : List Char) (acc : Nat), (nlRunsAux l acc).sum = acc + l.count '\n' := by
  intro l
  induction l with
  | nil =>
    intro acc
    rw [nlRunsAux]
    by_cases ha : acc = 0
    · subst ha; rfl
    · rw [if_neg (by simpa using ha)]
      simp
  | cons c cs ih =>
    intro acc
    by_cases hnl : (c == '\n') = true
    · rw [show nlRunsAux (c :: cs) acc = nlRunsAux cs (acc + 1) from by
        simp only [nlRunsAux]; rw [if_pos hnl]]
      rw [ih, List.count_cons, hnl]
      rw [if_pos (show (true = true) from rfl)]
      omega
    · have hnf : (c == '\n') = false := by simpa using hnl
      rw [show nlRunsAux (c :: cs) acc =
        (if (acc == 0) = true then nlRunsAux cs 0 else acc :: nlRunsAux cs 0) from by
          simp only [nlRunsAux]; rw [if_neg hnl]]
      rw [List.count_cons, hnf]
      by_cases ha : acc = 0
      · subst ha
        rw [if_pos (show (((0 : Nat) == 0) = true) from by decide), ih]
        simp
      · rw [if_neg (by simpa using ha), List.sum_cons, ih]
        simp

theorem sum_map_min_le (l : List Nat) : (l.map (fun n => min n 2)).sum ≤ l.sum := by
  induction l with
  | nil => simp
  | cons a t ih =>
    simp only [List.map_cons, List.sum_cons]
    exact Nat.add_le_add (min_le_left a 2) ih

/-- C9: safe_autofix is whitespace-only: its output is a sublist of its
input (it only ever deletes characters); the subsequence of non-whitespace
characters is preserved exactly; the word sequence — the maximal runs of
non-whitespace characters — is unchanged, so no word boundary is created or
destroyed; the first pass (trailing-whitespace stripping) changes no
newline, so it leaves the line count alone; the second pass exactly caps
every maximal newline run at two, which is precisely the collapsing of
blank-line runs; and hence the newline count never grows. -/
theorem safe_autofix_whitespace_only (x : List Char) :
    (safe_autofix x).Sublist x ∧
    filterNW (safe_autofix x) = filterNW x ∧
    wordsOf (safe_autofix x) = wordsOf x ∧
    (stripTrailingWS x).count '\n' = x.count '\n' ∧
    nlRuns (safe_autofix x) = (nlRuns (stripTrailingWS x)).map (fun n => min n 2) ∧
    (safe_autofix x).count '\n' ≤ x.count '\n' := by
  have hcount : (stripTrailingWS x).count '\n' = x.count '\n' :=
    count_nl_stripTrailAux x [] (fun d hd => absurd hd (List.not_mem_nil d))
  have hruns : nlRuns (safe_autofix x) = (nlRuns (stripTrailingWS x)).map
      (fun n => min n 2) := by
    rw [safe_autofix, collapseNL, nlRuns, nlRuns]
    exact nlRuns_collapseAux (stripTrailingWS x) 0
  refine ⟨?_, ?_, ?_, hcount, hruns, ?_⟩
  · exact List.Sublist.trans
      (by simpa using sublist_collapseAux (stripTrailingWS x) 0)
      (by simpa using sublist_stripTrailAux x [])
  · rw [safe_autofix, collapseNL, filterNW_collapseAux, stripTrailingWS,
      filterNW_stripTrailAux x [] rfl]
  · rw [safe_autofix, collapseNL, stripTrailingWS, wordsOf, wordsOf]
    rw [wordsAux_collapseAux]
    rw [List.replicate_zero, List.nil_append]
    rw [wordsAux_stripTrailAux x [] [] (fun d hd => absurd hd (List.not_mem_nil d))]
    rw [List.nil_append]
  · have h1 : (nlRuns (safe_autofix x)).sum = 0 + (safe_autofix x).count '\n' := by
      rw [nlRuns, sum_nlRunsAux]
    have h2 : (nlRuns (stripTrailingWS x)).sum = 0 + (stripTrailingWS x).count '\n' := by
      rw [nlRuns, sum_nlRunsAux]
    have h3 : ((nlRuns (stripTrailingWS x)).map (fun n => min n 2)).sum ≤
        (nlRuns (stripTrailingWS x)).sum := sum_map_min_le _
    have h4 : (nlRuns (safe_autofix x)).sum =
        ((nlRuns (stripTrailingWS x)).map (fun n => min n 2)).sum := by rw [hruns]
    omega

/-- C1 counterexample: with target range (8, 16) and hard maximum 22, a
sentence of exactly 22 words yields the INFO finding, not the WARN the claim
predicts; the hard-maximum comparison of the source (wc > max_sent_len) is
strict, so 22 words do not exceed the maximum of 22. -/
theorem sentence_length_rule_claim_false :
    word_count (wordsTxt 22) = 22 ∧
    (lenBlock (8, 16) 22 1 1 (wordsTxt 22)).map findingView =
      [(Level.INFO, "sentence_target", 1, some 1)] ∧
    (lenBlock (8, 16) 22 1 1 (wordsTxt 22)).map findingView ≠
      [(Level.WARN, "sentence_len", 1, some 1)] :=
  ⟨by decide, by decide, by decide⟩

/-- C1 (amended): the sentence-length rule emits a WARN when the word count
strictly exceeds the hard maximum, otherwise an INFO when the word count
falls outside the inclusive target range, otherwise nothing; it never emits
more than one finding, so WARN and INFO are mutually exclusive with the hard
maximum taking precedence.  With target range (8, 16) and maximum 22, a
22-word sentence yields the INFO (not a WARN), a 23-word sentence yields the
WARN, a 7-word sentence yields the INFO, and a 12-word sentence yields
nothing. -/
theorem sentence_length_rule (sr : Nat × Nat) (maxSentLen pi si : Nat) (s : List Char) :
    (maxSentLen < word_count s →
      (lenBlock sr maxSentLen pi si s).map findingView =
        [(Level.WARN, "sentence_len", pi, some si)]) ∧
    (word_count s ≤ maxSentLen → (word_count s < sr.1 ∨ sr.2 < word_count s) →
      (lenBlock sr maxSentLen pi si s).map findingView =
        [(Level.INFO, "sentence_target", pi, some si)]) ∧
    (word_count s ≤ maxSentLen → sr.1 ≤ word_count s → word_count s ≤ sr.2 →
      lenBlock sr maxSentLen pi si s = []) ∧
    (lenBlock sr maxSentLen pi si s).length ≤ 1 ∧
    (word_count s = 22 →
      (lenBlock (8, 16) 22 pi si s).map findingView =
        [(Level.INFO, "sentence_target", pi, some si)]) ∧
    (word_count s = 23 →
      (lenBlock (8, 16) 22 pi si s).map findingView =
        [(Level.WARN, "sentence_len", pi, some si)]) ∧
    (word_count s = 7 →
      (lenBlock (8, 16) 22 pi si s).map findingView =
        [(Level.INFO, "sentence_target", pi, some si)]) ∧
    (word_count s = 12 → lenBlock (8, 16) 22 pi si s = []) := by
  have hgen : ∀ (sr2 : Nat × Nat) (m : Nat),
      (m < word_count s →
        (lenBlock sr2 m pi si s).map findingView = [(Level.WARN, "sentence_len", pi, some si)]) ∧
      (word_count s ≤ m → (word_count s < sr2.1 ∨ sr2.2 < word_count s) →
        (lenBlock sr2 m pi si s).map findingView = [(Level.INFO, "sentence_target", pi, some si)]) ∧
      (word_count s ≤ m → sr2.1 ≤ word_count s → word_count s ≤ sr2.2 →
        lenBlock sr2 m pi si s = []) ∧
      (lenBlock sr2 m pi si s).length ≤ 1 := by
    intro sr2 m
    refine ⟨fun h1 => ?_, fun h1 h2 => ?_, fun h1 h2 h3 => ?_, ?_⟩
    · rw [lenBlock, if_pos h1]
      rfl
    · rw [lenBlock, if_neg (by omega),
        if_pos (by simp only [Bool.or_eq_true, decide_eq_true_eq]; omega)]
      rfl
    · rw [lenBlock, if_neg (by omega),
        if_neg (by simp only [Bool.or_eq_true, decide_eq_true_eq]; omega)]
    · rw [lenBlock]
      split
      · simp
      · split <;> simp
  refine ⟨(hgen sr maxSentLen).1, (hgen sr maxSentLen).2.1, (hgen sr maxSentLen).2.2.1,
    (hgen sr maxSentLen).2.2.2, fun h => ?_, fun h => ?_, fun h => ?_, fun h => ?_⟩
  · exact (hgen (8, 16) 22).2.1 (by omega) (by right; omega)
  · exact (hgen (8, 16) 22).1 (by omega)
  · exact (hgen (8, 16) 22).2.1 (by omega) (by left; omega)
  · exact (hgen (8, 16) 22).2.2.1 (by omega) (by omega) (by omega)

/-- Witness for the amended C1 at concrete sentences of 22, 23, 7 and 12
words. -/
theorem sentence_length_rule_witness :
    word_count (wordsTxt 22) = 22 ∧
    (lenBlock (8, 16) 22 1 1 (wordsTxt 22)).map findingView =
      [(Level.INFO, "sentence_target", 1, some 1)] ∧
    word_count (wordsTxt 23) = 23 ∧
    (lenBlock (8, 16) 22 1 1 (wordsTxt 23)).map findingView =
      [(Level.WARN, "sentence_len", 1, some 1)] ∧
    word_count (wordsTxt 7) = 7 ∧
    (lenBlock (8, 16) 22 1 1 (wordsTxt 7)).map findingView =
      [(Level.INFO, "sentence_target", 1, some 1)] ∧
    word_count (wordsTxt 12) = 12 ∧
    lenBlock (8, 16) 22 1 1 (wordsTxt 12) = [] :=
  ⟨by decide,
   (sentence_length_rule (8, 16) 22 1 1 (wordsTxt 22)).2.2.2.2.1 (by decide),
   by decide,
   (sentence_length_rule (8, 16) 22 1 1 (wordsTxt 23)).2.2.2.2.2.1 (by decide),
   by decide,
   (sentence_length_rule (8, 16) 22 1 1 (wordsTxt 7)).2.2.2.2.2.2.1 (by decide),
   by decide,
   (sentence_length_rule (8, 16) 22 1 1 (wordsTxt 12)).2.2.2.2.2.2.2 (by decide)⟩

theorem mem_lenBlock {sr : Nat × Nat} {m pi si : Nat} {s : List Char} {f : Finding}
    (h : f ∈ lenBlock sr m pi si s) :
    f.para = pi ∧ f.sent = some si ∧ f.level ≠ Level.ERROR ∧
    (f.ftype = "sentence_len" ∨ f.ftype = "sentence_target") := by
  rw [lenBlock] at h
  split at h
  · simp only [List.mem_singleton] at h
    subst h
    exact ⟨rfl, rfl, by simp, Or.inl rfl⟩
  · split at h
    · simp only [List.mem_singleton] at h
      subst h
      exact ⟨rfl, rfl, by simp, Or.inr rfl⟩
    · simp at h

theorem mem_passiveBlock {pa : Bool} {pi si : Nat} {s : List Char} {f : Finding}
    (h : f ∈ passiveBlock pa pi si s) :
    f.para = pi ∧ f.sent = some si ∧ f.level = Level.WARN ∧ f.ftype = "passive" := by
  rw [passiveBlock] at h
  split at h
  · simp only [List.mem_singleton] at h
    subst h
    exact ⟨rfl, rfl, rfl, rfl⟩
  · simp at h

theorem mem_vagueBlock {rm : Bool} {pi si : Nat} {s : List Char} {f : Finding}
    (h : f ∈ vagueBlock rm pi si s) :
    f.para = pi ∧ f.sent = some si ∧ f.level = Level.WARN ∧ f.ftype = "vague_no_metric" := by
  rw [vagueBlock] at h
  split at h
  · simp only [List.mem_singleton] at h
    subst h
    exact ⟨rfl, rfl, rfl, rfl⟩
  · simp at h

theorem mem_termBlock {pi si : Nat} {s : List Char} {f : Finding}
    (h : f ∈ termBlock pi si s) :
    f.para = pi ∧ f.sent = some si ∧ f.level = Level.INFO ∧ f.ftype = "terminology" := by
  rw [termBlock] at h
  split at h
  · simp only [List.mem_singleton] at h
    subst h
    exact ⟨rfl, rfl, rfl, rfl⟩
  · simp at h

theorem mem_paraLenBlock {mp pi : Nat} {sents : List (List Char)} {f : Finding}
    (h : f ∈ paraLenBlock mp pi sents) :
    f.para = pi ∧ f.sent = none ∧ f.level = Level.WARN ∧ f.ftype = "paragraph_len" := by
  rw [paraLenBlock] at h
  split at h
  · simp only [List.mem_singleton] at h
    subst h
    exact ⟨rfl, rfl, rfl, rfl⟩
  · simp at h

theorem mem_bannedBlock {banned : List (List Char)} {pi : Nat} {para : List Char} {f : Finding}
    (h : f ∈ bannedBlock banned pi para) :
    f.para = pi ∧ f.sent = none ∧ f.level = Level.ERROR ∧ f.ftype = "banned" := by
  rw [bannedBlock] at h
  simp only [List.mem_flatten, List.mem_map] at h
  obtain ⟨l, ⟨pq, _, hl⟩, hf⟩ := h
  subst hl
  split at hf
  · simp only [List.mem_singleton] at hf
    subst hf
    exact ⟨rfl, rfl, rfl, rfl⟩
  · simp at hf

theorem countP_vague_lenBlock (sr : Nat × Nat) (m pi si : Nat) (s : List Char) :
    (lenBlock sr m pi si s).countP (fun f => f.ftype == "vague_no_metric") = 0 := by
  rw [lenBlock]
  split
  · simp [List.countP_cons]
  · split <;> simp [List.countP_cons]

theorem countP_vague_passiveBlock (pa : Bool) (pi si : Nat) (s : List Char) :
    (passiveBlock pa pi si s).countP (fun f => f.ftype == "vague_no_metric") = 0 := by
  rw [passiveBlock]
  split <;> simp [List.countP_cons]

theorem countP_vague_termBlock (pi si : Nat) (s : List Char) :
    (termBlock pi si s).countP (fun f => f.ftype == "vague_no_metric") = 0 := by
  rw [termBlock]
  split <;> simp [List.countP_cons]

theorem countP_vague_vagueBlock (rm : Bool) (pi si : Nat) (s : List Char) :
    (vagueBlock rm pi si s).countP (fun f => f.ftype == "vague_no_metric") =
      if rm && vagueMatch s && !has_metric_nearby s then 1 else 0 := by
  rw [vagueBlock]
  split
  · simp [List.countP_cons]
  · simp

/-- C5: with the metric requirement enabled, a sentence receives exactly one
WARN vague-claim finding if and only if it matches a vague-intensifier
pattern and does not contain a numeric-metric pattern; any vague-claim
finding carries severity WARN and the sentence position.  On the concrete
sentences, the vague one with no metric yields exactly one such finding and
the one with the 40-percent metric yields none. -/
theorem vague_claim_rule (sr : Nat × Nat) (maxSentLen : Nat) (passiveAllowed : Bool)
    (pi si : Nat) (s : List Char) :
    ((sentenceIssues sr maxSentLen passiveAllowed true pi si s).countP
        (fun f => f.ftype == "vague_no_metric") =
      if vagueMatch s && !has_metric_nearby s then 1 else 0) ∧
    ((sentenceIssues sr maxSentLen passiveAllowed true pi si s).countP
        (fun f => f.ftype == "vague_no_metric") = 1 ↔
      vagueMatch s = true ∧ has_metric_nearby s = false) ∧
    (∀ f ∈ sentenceIssues sr maxSentLen passiveAllowed true pi si s,
      f.ftype = "vague_no_metric" →
        f.level = Level.WARN ∧ f.para = pi ∧ f.sent = some si) ∧
    (sentenceIssues sr maxSentLen passiveAllowed true pi si
        ("Это значительно ускоряет процесс.".toList)).countP
      (fun f => f.ftype == "vague_no_metric") = 1 ∧
    (sentenceIssues sr maxSentLen passiveAllowed true pi si
        ("Это ускоряет процесс на 40%.".toList)).countP
      (fun f => f.ftype == "vague_no_metric") = 0 := by
  have hcount : ∀ t : List Char,
      (sentenceIssues sr maxSentLen passiveAllowed true pi si t).countP
        (fun f => f.ftype == "vague_no_metric") =
      if vagueMatch t && !has_metric_nearby t then 1 else 0 := by
    intro t
    rw [sentenceIssues, List.countP_append, List.countP_append, List.countP_append,
      countP_vague_lenBlock, countP_vague_passiveBlock, countP_vague_termBlock,
      countP_vague_vagueBlock]
    simp
  refine ⟨hcount s, ?_, ?_, ?_, ?_⟩
  · rw [hcount s]
    constructor
    · intro h
      by_cases hv : vagueMatch s && !has_metric_nearby s
      · simp only [Bool.and_eq_true, Bool.not_eq_true'] at hv
        exact hv
      · rw [if_neg hv] at h
        exact absurd h (by omega)
    · intro ⟨h1, h2⟩
      rw [if_pos (by simp [h1, h2])]
  · intro f hf hft
    rw [sentenceIssues] at hf
    simp only [List.mem_append] at hf
    rcases hf with ((hf | hf) | hf) | hf
    · rcases (mem_lenBlock hf).2.2.2 with h | h <;> rw [hft] at h <;> simp at h
    · have := (mem_passiveBlock hf).2.2.2
      rw [hft] at this
      simp at this
    · obtain ⟨h1, h2, h3, _⟩ := mem_vagueBlock hf
      exact ⟨h3, h1, h2⟩
    · have := (mem_termBlock hf).2.2.2
      rw [hft] at this
      simp at this
  · rw [hcount]
    decide
  · rw [hcount]
    decide

/-- Witness for C5 at the two concrete sentences. -/
theorem vague_claim_rule_witness :
    ((sentenceIssues (8, 16) 22 false true 1 1
        ("Это значительно ускоряет процесс.".toList)).countP
      (fun f => f.ftype == "vague_no_metric") = 1 ↔
      vagueMatch ("Это значительно ускоряет процесс.".toList) = true ∧
      has_metric_nearby ("Это значительно ускоряет процесс.".toList) = false) ∧
    vagueMatch ("Это значительно ускоряет процесс.".toList) = true ∧
    has_metric_nearby ("Это значительно ускоряет процесс.".toList) = false :=
  ⟨(vague_claim_rule (8, 16) 22 false 1 1 ("Это значительно ускоряет процесс.".toList)).2.1,
   by decide, by decide⟩

theorem filterNW_dropWhile_space (l : List Char) :
    filterNW (l.dropWhile isSpaceCh) = filterNW l := by
  induction l with
  | nil => rfl
  | cons c cs ih =>
    rw [List.dropWhile_cons]
    split <;> rename_i h
    · rw [ih]
      simp only [filterNW, List.filter_cons]
      simp [h]
    · rfl

theorem filterNW_reverse (l : List Char) : filterNW l.reverse = (filterNW l).reverse := by
  simp [filterNW, List.filter_reverse]

theorem filterNW_pyLstrip (l : List Char) : filterNW (pyLstrip l) = filterNW l :=
  filterNW_dropWhile_space l

theorem filterNW_pyRstrip (l : List Char) : filterNW (pyRstrip l) = filterNW l := by
  rw [pyRstrip, filterNW_reverse, filterNW_dropWhile_space, filterNW_reverse,
    List.reverse_reverse]

theorem filterNW_pyStrip (l : List Char) : filterNW (pyStrip l) = filterNW l := by
  rw [pyStrip, filterNW_pyRstrip, filterNW_pyLstrip]

theorem filterNW_append (a b : List Char) :
    filterNW (a ++ b) = filterNW a ++ filterNW b := by
  simp [filterNW, List.filter_append]

theorem filterNW_space_cons (z : List Char) : filterNW (' ' :: z) = filterNW z := by
  simp only [filterNW]
  rw [List.filter_cons]
  simp [isSpaceCh]

theorem filterNW_nil : filterNW [] = [] := rfl

theorem filterNW_flatten (L : List (List Char)) :
    filterNW L.flatten = (L.map filterNW).flatten := by
  rw [filterNW, List.filter_flatten]
  rfl

theorem take_takeWhile_eq (p : Char → Bool) (l : List Char) :
    ∀ k, k ≤ (l.takeWhile p).length → l.take k = (l.takeWhile p).take k := by
  induction l with
  | nil => intro k _; simp
  | cons c cs ih =>
    intro k hk
    rw [List.takeWhile_cons] at hk ⊢
    by_cases hp : p c = true
    · rw [if_pos hp] at hk ⊢
      cases k with
      | zero => simp
      | succ n =>
        simp only [List.take_succ_cons, List.length_cons] at hk ⊢
        rw [ih n (by omega)]
    · rw [if_neg hp] at hk
      simp only [List.length_nil, Nat.le_zero] at hk
      subst hk
      simp

theorem paraSepLen_le_run (l : List Char) :
    paraSepLen l ≤ (l.takeWhile isSpaceCh).length := by
  rw [paraSepLen]
  split
  · split
    · omega
    · split <;> omega
  · omega

theorem paraSepLen_all_space {l : List Char} (_h : 0 < paraSepLen l) :
    (l.take (paraSepLen l)).all isSpaceCh = true := by
  rw [take_takeWhile_eq isSpaceCh l _ (paraSepLen_le_run l)]
  rw [List.all_eq_true]
  intro x hx
  exact List.mem_takeWhile_imp (List.mem_of_mem_take hx)

theorem filterNW_allspace {l : List Char} (h : l.all isSpaceCh = true) :
    filterNW l = [] := by
  induction l with
  | nil => rfl
  | cons c cs ih =>
    simp only [List.all_cons, Bool.and_eq_true] at h
    have h2 := ih h.2
    rw [filterNW] at h2 ⊢
    rw [List.filter_cons]
    simp [h.1, h2]

theorem rawParaSplitF_ne_nil : ∀ (fuel : Nat) (l : List Char), rawParaSplitF fuel l ≠ [] := by
  intro fuel l
  match fuel, l with
  | _, [] => simp [rawParaSplitF]
  | 0, c :: cs => simp [rawParaSplitF]
  | fuel + 1, c :: cs =>
    rw [rawParaSplitF]
    split
    · simp
    · split <;> simp

theorem filterNW_flatten_rawParaSplitF :
    ∀ (fuel : Nat) (l : List Char), l.length ≤ fuel →
      filterNW (rawParaSplitF fuel l).flatten = filterNW l := by
  intro fuel
  induction fuel with
  | zero =>
    intro l hl
    have hnil : l = [] := by
      cases l with
      | nil => rfl
      | cons c cs => simp at hl
    subst hnil
    rfl
  | succ n ih =>
    intro l hl
    cases l with
    | nil => rfl
    | cons c cs =>
      rw [rawParaSplitF]
      split <;> rename_i hk
      · have hdrop : ((c :: cs).drop (paraSepLen (c :: cs))).length ≤ n := by
          simp only [List.length_drop, List.length_cons]
          simp only [List.length_cons] at hl
          omega
        simp only [List.flatten_cons, List.nil_append]
        rw [ih _ hdrop]
        conv_rhs => rw [← List.take_append_drop (paraSepLen (c :: cs)) (c :: cs)]
        rw [filterNW_append, filterNW_allspace (paraSepLen_all_space hk)]
        simp
      · cases hres : rawParaSplitF n cs with
        | nil => exact absurd hres (rawParaSplitF_ne_nil n cs)
        | cons p ps =>
          have h2 := ih cs (by simp only [List.length_cons] at hl; omega)
          rw [hres] at h2
          simp only [List.flatten_cons, List.cons_append] at h2 ⊢
          simp only [filterNW, List.filter_cons] at h2 ⊢
          cases hsp : isSpaceCh c <;> simp [hsp, h2]

theorem sentSplitAuxF_ne_nil : ∀ (fuel : Nat) (b : Bool) (l : List Char),
    sentSplitAuxF fuel b l ≠ [] := by
  intro fuel b l
  match fuel, b, l with
  | _, _, [] => simp [sentSplitAuxF]
  | 0, b, c :: cs => simp [sentSplitAuxF]
  | fuel + 1, b, c :: cs =>
    rw [sentSplitAuxF]
    split
    · simp
    · split <;> simp

theorem filterNW_flatten_sentSplitAuxF :
    ∀ (fuel : Nat) (b : Bool) (l : List Char), l.length ≤ fuel →
      filterNW (sentSplitAuxF fuel b l).flatten = filterNW l := by
  intro fuel
  induction fuel with
  | zero =>
    intro b l hl
    have hnil : l = [] := by
      cases l with
      | nil => rfl
      | cons c cs => simp at hl
    subst hnil
    rfl
  | succ n ih =>
    intro b l hl
    cases l with
    | nil => rfl
    | cons c cs =>
      rw [sentSplitAuxF]
      split <;> rename_i hcond
      · have hdrop : (cs.dropWhile isSpaceCh).length ≤ n := by
          have := (List.dropWhile_sublist (l := cs) isSpaceCh).length_le
          simp only [List.length_cons] at hl
          omega
        simp only [List.flatten_cons, List.nil_append]
        rw [ih _ _ hdrop, filterNW_dropWhile_space]
        have hc : isSpaceCh c = true := by
          simp only [Bool.and_eq_true] at hcond
          exact hcond.2
        simp only [filterNW, List.filter_cons]
        simp [hc]
      · cases hres : sentSplitAuxF n (isTerm c) cs with
        | nil => exact absurd hres (sentSplitAuxF_ne_nil n (isTerm c) cs)
        | cons p ps =>
          have h2 := ih (isTerm c) cs (by simp only [List.length_cons] at hl; omega)
          rw [hres] at h2
          simp only [List.flatten_cons, List.cons_append] at h2 ⊢
          simp only [filterNW, List.filter_cons] at h2 ⊢
          cases hsp : isSpaceCh c <;> simp [hsp, h2]

theorem flatten_filter_nonempty (L : List (List Char)) :
    (L.filter (fun p => !p.isEmpty)).flatten = L.flatten := by
  induction L with
  | nil => rfl
  | cons p ps ih =>
    rw [List.filter_cons]
    by_cases hp : p.isEmpty
    · have hnil : p = [] := by simpa [List.isEmpty_iff] using hp
      subst hnil
      simp [ih]
    · simp only [hp, Bool.not_false, if_pos]
      simp [List.flatten_cons, ih]

theorem filterNW_mergeStep (acc : List (List Char)) (t : List Char) :
    filterNW (mergeStep acc t).flatten = filterNW acc.flatten ++ filterNW t := by
  by_cases he : (pyStrip t).isEmpty
  · have hstep : mergeStep acc t = acc := by rw [mergeStep, if_pos he]
    have h0 : pyStrip t = [] := by simpa [List.isEmpty_iff] using he
    have ht : filterNW t = [] := by rw [← filterNW_pyStrip t, h0]; rfl
    simp [hstep, ht]
  · cases hlast : acc.getLast? with
    | none =>
      have hstep : mergeStep acc t = acc ++ [pyStrip t] := by
        rw [mergeStep, if_neg he, hlast]
      have hacc : acc = [] := by simpa using hlast
      subst hacc
      rw [hstep]
      simp only [List.nil_append, List.flatten_cons, List.flatten_nil, List.append_nil,
        filterNW_nil]
      rw [filterNW_pyStrip]
    | some prev =>
      have hne : acc ≠ [] := by intro hc; subst hc; simp at hlast
      have hprev : acc.getLast hne = prev := by
        have := List.getLast?_eq_getLast acc hne
        rw [hlast] at this
        exact (Option.some.inj this).symm
      have hdecomp : acc.dropLast ++ [prev] = acc := by
        rw [← hprev]
        exact List.dropLast_append_getLast hne
      by_cases hab : endsWithAbbrev prev
      · have hstep : mergeStep acc t
            = acc.dropLast ++ [pyRstrip prev ++ ' ' :: pyLstrip (pyStrip t)] := by
          rw [mergeStep, if_neg he, hlast]
          simp only [hab, if_pos]
        rw [hstep]
        conv_rhs => rw [← hdecomp]
        rw [List.flatten_append, List.flatten_append]
        simp only [List.flatten_cons, List.flatten_nil, List.append_nil]
        rw [filterNW_append, filterNW_append, filterNW_append, filterNW_pyRstrip,
          filterNW_space_cons, filterNW_pyLstrip, filterNW_pyStrip, List.append_assoc]
      · have hstep : mergeStep acc t = acc ++ [pyStrip t] := by
          rw [mergeStep, if_neg he, hlast]
          simp only [hab, if_neg, Bool.false_eq_true, if_false]
        rw [hstep]
        rw [List.flatten_append]
        simp only [List.flatten_cons, List.flatten_nil, List.append_nil]
        rw [filterNW_append, filterNW_pyStrip]

theorem filterNW_flatten_mergeFold (toks : List (List Char)) :
    ∀ acc : List (List Char),
      filterNW (toks.foldl mergeStep acc).flatten =
        filterNW acc.flatten ++ filterNW toks.flatten := by
  induction toks with
  | nil => intro acc; simp [filterNW_nil]
  | cons t ts ih =>
    intro acc
    rw [List.foldl_cons, ih (mergeStep acc t), filterNW_mergeStep]
    simp only [List.flatten_cons]
    rw [filterNW_append, List.append_assoc]

/-- C7: segmentation loses no text: the non-whitespace characters of the
concatenated paragraphs of split_paragraphs are exactly those of the
document, and the non-whitespace characters of the concatenated sentences of
split_sentences are exactly those of the paragraph — text differs only by
whitespace, nothing is lost or duplicated. -/
theorem segmentation_preserves_text :
    (∀ d : List Char, filterNW (split_paragraphs d).flatten = filterNW d) ∧
    (∀ para : List Char, filterNW (split_sentences para).flatten = filterNW para) := by
  constructor
  · intro d
    rw [split_paragraphs, flatten_filter_nonempty, filterNW_flatten, List.map_map]
    have hmap : (rawParaSplit (pyStrip d)).map (filterNW ∘ pyStrip)
        = (rawParaSplit (pyStrip d)).map filterNW := by
      apply List.map_congr_left
      intro a _
      exact filterNW_pyStrip a
    rw [hmap, ← filterNW_flatten, rawParaSplit,
      filterNW_flatten_rawParaSplitF _ _ (le_refl _), filterNW_pyStrip]
  · intro para
    rw [split_sentences, filterNW_flatten_mergeFold (sentRaw para) [], sentRaw,
      filterNW_flatten_sentSplitAuxF _ _ _ (le_refl _)]
    rfl

theorem dropWhile_eq_self_of_length {p : Char → Bool} {l : List Char}
    (h : (l.dropWhile p).length = l.length) : l.dropWhile p = l := by
  have hsplit := List.takeWhile_append_dropWhile (p := p) (l := l)
  have hlen := congrArg List.length hsplit
  simp only [List.length_append] at hlen
  have htake : l.takeWhile p = [] :=
    List.eq_nil_of_length_eq_zero (by omega)
  rw [htake] at hsplit
  simpa using hsplit

theorem fixes_of_pyStrip_fix {l : List Char} (h : pyStrip l = l) :
    pyLstrip l = l ∧ pyRstrip l = l := by
  have hlen := congrArg List.length h
  have h1 : (pyLstrip l).length ≤ l.length := by
    rw [pyLstrip]
    exact (List.dropWhile_sublist (l := l) isSpaceCh).length_le
  have h2 : (pyRstrip (pyLstrip l)).length ≤ (pyLstrip l).length := by
    rw [pyRstrip, List.length_reverse]
    have := (List.dropWhile_sublist (l := (pyLstrip l).reverse) isSpaceCh).length_le
    simpa using this
  rw [pyStrip] at hlen
  have hl : pyLstrip l = l := by
    have hfeq : (pyLstrip l).length = l.length := by omega
    rw [pyLstrip] at hfeq ⊢
    exact dropWhile_eq_self_of_length hfeq
  refine ⟨hl, ?_⟩
  rw [pyStrip, hl] at h
  exact h

theorem head_not_space_of_lstrip_fix {c : Char} {t : List Char}
    (h : pyLstrip (c :: t) = c :: t) : isSpaceCh c = false := by
  by_contra hc
  rw [Bool.not_eq_false] at hc
  rw [pyLstrip, List.dropWhile_cons, if_pos hc] at h
  have hlen := congrArg List.length h
  have hle := (List.dropWhile_sublist (l := t) isSpaceCh).length_le
  simp only [List.length_cons] at hlen
  omega

theorem pyLstrip_fix_of_head {c : Char} {t : List Char} (hc : isSpaceCh c = false) :
    pyLstrip (c :: t) = c :: t := by
  rw [pyLstrip, List.dropWhile_cons, if_neg (by simp [hc])]

theorem pyRstrip_fix_of_rev {l : List Char} {d : Char} {w : List Char}
    (hr : l.reverse = d :: w) (hd : isSpaceCh d = false) : pyRstrip l = l := by
  rw [pyRstrip, hr, List.dropWhile_cons, if_neg (by simp [hd]), ← hr,
    List.reverse_reverse]

theorem rev_lstrip_fix_of_rstrip_fix {l : List Char} (h : pyRstrip l = l) :
    pyLstrip l.reverse = l.reverse := by
  have := congrArg List.reverse h
  rw [pyRstrip, List.reverse_reverse] at this
  rw [pyLstrip, this]

theorem dropWhile_idem (p : Char → Bool) (l : List Char) :
    (l.dropWhile p).dropWhile p = l.dropWhile p := by
  induction l with
  | nil => rfl
  | cons a t ih =>
    rw [List.dropWhile_cons]
    split <;> rename_i h
    · exact ih
    · rw [List.dropWhile_cons, if_neg h]

theorem pyLstrip_idem (l : List Char) : pyLstrip (pyLstrip l) = pyLstrip l := by
  simp only [pyLstrip]
  exact dropWhile_idem _ _

theorem pyRstrip_idem (l : List Char) : pyRstrip (pyRstrip l) = pyRstrip l := by
  simp only [pyRstrip]
  rw [List.reverse_reverse, dropWhile_idem]

theorem dropWhile_append_last (p : Char → Bool) (z : List Char) (c : Char) :
    (z ++ [c]).dropWhile p = [] ∨ ∃ w, (z ++ [c]).dropWhile p = w ++ [c] := by
  induction z with
  | nil =>
    rw [List.nil_append, List.dropWhile_cons]
    split
    · left; rfl
    · right; exact ⟨[], rfl⟩
  | cons a t ih =>
    rw [List.cons_append, List.dropWhile_cons]
    split
    · exact ih
    · right; exact ⟨a :: (t ++ [c]).dropLast, by simp⟩

theorem pyLstrip_pyRstrip_fix {y : List Char} (h : pyLstrip y = y) :
    pyLstrip (pyRstrip y) = pyRstrip y := by
  cases hy : y with
  | nil => rfl
  | cons c t =>
    have hc : isSpaceCh c = false := head_not_space_of_lstrip_fix (hy ▸ h)
    rcases dropWhile_append_last isSpaceCh t.reverse c with hd | ⟨w, hw⟩
    · rw [pyRstrip, List.reverse_cons, hd]
      rfl
    · rw [pyRstrip, List.reverse_cons, hw, List.reverse_append]
      simp only [List.reverse_cons, List.reverse_nil, List.nil_append]
      exact pyLstrip_fix_of_head hc

theorem pyStrip_idem (l : List Char) : pyStrip (pyStrip l) = pyStrip l := by
  simp only [pyStrip]
  rw [pyLstrip_pyRstrip_fix (pyLstrip_idem l), pyRstrip_idem]

theorem merged_elem_wf {prev tok : List Char}
    (hpne : prev ≠ []) (hpl : pyLstrip prev = prev)
    (htne : tok ≠ []) (htr : pyRstrip tok = tok) :
    (prev ++ ' ' :: tok) ≠ [] ∧ pyStrip (prev ++ ' ' :: tok) = prev ++ ' ' :: tok := by
  obtain ⟨c, t', rfl⟩ : ∃ c t', prev = c :: t' := by
    cases prev with
    | nil => exact absurd rfl hpne
    | cons c t' => exact ⟨c, t', rfl⟩
  have hc : isSpaceCh c = false := head_not_space_of_lstrip_fix hpl
  have hlfix : pyLstrip ((c :: t') ++ ' ' :: tok) = (c :: t') ++ ' ' :: tok := by
    rw [List.cons_append]
    exact pyLstrip_fix_of_head hc
  obtain ⟨d, w, hdw⟩ : ∃ d w, tok.reverse = d :: w := by
    cases htokrev : tok.reverse with
    | nil => exact absurd (by simpa using congrArg List.reverse htokrev) htne
    | cons d w => exact ⟨d, w, rfl⟩
  have hd : isSpaceCh d = false := by
    have hrl : pyLstrip tok.reverse = tok.reverse := rev_lstrip_fix_of_rstrip_fix htr
    rw [hdw] at hrl
    exact head_not_space_of_lstrip_fix hrl
  have hrev : ((c :: t') ++ ' ' :: tok).reverse = d :: (w ++ ' ' :: (c :: t').reverse) := by
    rw [List.reverse_append, List.reverse_cons, hdw]
    simp
  have hrfix : pyRstrip ((c :: t') ++ ' ' :: tok) = (c :: t') ++ ' ' :: tok :=
    pyRstrip_fix_of_rev hrev hd
  refine ⟨by simp, ?_⟩
  rw [pyStrip, hlfix, hrfix]

theorem mergeStep_wf {acc : List (List Char)} {t : List Char}
    (hacc : ∀ s ∈ acc, s ≠ [] ∧ pyStrip s = s) :
    ∀ s ∈ mergeStep acc t, s ≠ [] ∧ pyStrip s = s := by
  intro s hs
  by_cases he : (pyStrip t).isEmpty
  · rw [mergeStep, if_pos he] at hs
    exact hacc s hs
  · have htne : pyStrip t ≠ [] := by simpa [List.isEmpty_iff] using he
    have htfix : pyStrip (pyStrip t) = pyStrip t := pyStrip_idem t
    obtain ⟨htl, htr⟩ := fixes_of_pyStrip_fix htfix
    cases hlast : acc.getLast? with
    | none =>
      rw [mergeStep, if_neg he, hlast] at hs
      rcases List.mem_append.mp hs with h | h
      · exact hacc s h
      · simp only [List.mem_singleton] at h
        subst h
        exact ⟨htne, htfix⟩
    | some prev =>
      have hne : acc ≠ [] := by intro hc; subst hc; simp at hlast
      have hprevmem : prev ∈ acc := by
        have hgl := List.getLast?_eq_getLast acc hne
        rw [hlast] at hgl
        rw [Option.some.inj hgl]
        exact List.getLast_mem hne
      obtain ⟨hpne, hpfix⟩ := hacc prev hprevmem
      obtain ⟨hpl, hpr⟩ := fixes_of_pyStrip_fix hpfix
      by_cases hab : endsWithAbbrev prev
      · have hstep : mergeStep acc t
            = acc.dropLast ++ [pyRstrip prev ++ ' ' :: pyLstrip (pyStrip t)] := by
          rw [mergeStep, if_neg he, hlast]
          simp only [hab, if_pos]
        rw [hstep] at hs
        rcases List.mem_append.mp hs with h | h
        · exact hacc s ((List.dropLast_sublist acc).subset h)
        · simp only [List.mem_singleton] at h
          subst h
          rw [hpr, htl]
          exact merged_elem_wf hpne hpl htne htr
      · have hstep : mergeStep acc t = acc ++ [pyStrip t] := by
          rw [mergeStep, if_neg he, hlast]
          simp only [hab, if_neg, Bool.false_eq_true, if_false]
        rw [hstep] at hs
        rcases List.mem_append.mp hs with h | h
        · exact hacc s h
        · simp only [List.mem_singleton] at h
          subst h
          exact ⟨htne, htfix⟩

theorem mergeFold_wf (toks : List (List Char)) :
    ∀ acc, (∀ s ∈ acc, s ≠ [] ∧ pyStrip s = s) →
      ∀ s ∈ toks.foldl mergeStep acc, s ≠ [] ∧ pyStrip s = s := by
  induction toks with
  | nil => intro acc hacc; exact hacc
  | cons t ts ih =>
    intro acc hacc
    rw [List.foldl_cons]
    exact ih _ (mergeStep_wf hacc)

theorem mem_enumFrom_bounds {α : Type} {n i : Nat} {x : α} {l : List α}
    (h : (i, x) ∈ List.enumFrom n l) : n ≤ i ∧ i < n + l.length := by
  induction l generalizing n with
  | nil => simp at h
  | cons a t ih =>
    rw [show List.enumFrom n (a :: t) = (n, a) :: List.enumFrom (n + 1) t from rfl] at h
    rcases List.mem_cons.mp h with h | h
    · have : i = n := congrArg Prod.fst h
      simp only [List.length_cons]
      omega
    · have := ih h
      simp only [List.length_cons]
      omega

theorem mem_sentenceIssues {sr : Nat × Nat} {m : Nat} {pa rm : Bool} {pi si : Nat}
    {s : List Char} {f : Finding} (h : f ∈ sentenceIssues sr m pa rm pi si s) :
    f.para = pi ∧ f.sent = some si ∧ 2 ≤ ruleRank f.ftype ∧ ruleRank f.ftype ≤ 5 := by
  rw [sentenceIssues] at h
  simp only [List.mem_append] at h
  rcases h with ((h | h) | h) | h
  · obtain ⟨h1, h2, _, h4⟩ := mem_lenBlock h
    rcases h4 with h4 | h4 <;> rw [h4] <;> exact ⟨h1, h2, by decide, by decide⟩
  · obtain ⟨h1, h2, _, h4⟩ := mem_passiveBlock h
    rw [h4]
    exact ⟨h1, h2, by decide, by decide⟩
  · obtain ⟨h1, h2, _, h4⟩ := mem_vagueBlock h
    rw [h4]
    exact ⟨h1, h2, by decide, by decide⟩
  · obtain ⟨h1, h2, _, h4⟩ := mem_termBlock h
    rw [h4]
    exact ⟨h1, h2, by decide, by decide⟩

/-- C10: every paragraph containing at least one non-whitespace character is
split into a nonempty list of sentences; every returned sentence is nonempty
and carries no leading or trailing whitespace; and every sentence-level
finding check_file emits for a paragraph has a sentence index between 1 and
the number of sentences of that paragraph. -/
theorem split_sentences_wellformed (para : List Char) :
    (filterNW para ≠ [] → split_sentences para ≠ []) ∧
    (∀ s ∈ split_sentences para, s ≠ [] ∧ pyStrip s = s) ∧
    (∀ (banned : List (List Char)) (params : LintParams) (pi : Nat) (f : Finding) (si : Nat),
      f ∈ paragraphIssues banned params pi para → f.sent = some si →
      1 ≤ si ∧ si ≤ (split_sentences para).length) := by
  refine ⟨?_, ?_, ?_⟩
  · intro hnw hcontra
    have hseg := segmentation_preserves_text.2 para
    rw [hcontra] at hseg
    exact hnw (by simpa using hseg.symm)
  · intro s hs
    exact mergeFold_wf (sentRaw para) [] (by intro u hu; simp at hu) s hs
  · intro banned params pi f si hf hsent
    rw [paragraphIssues] at hf
    simp only [List.mem_append] at hf
    rcases hf with (hf | hf) | hf
    · rw [(mem_paraLenBlock hf).2.1] at hsent
      simp at hsent
    · rw [(mem_bannedBlock hf).2.1] at hsent
      simp at hsent
    · simp only [List.mem_flatten, List.mem_map] at hf
      obtain ⟨blk, ⟨p, hp, hblk⟩, hfblk⟩ := hf
      obtain ⟨i, x⟩ := p
      subst hblk
      have hsi := (mem_sentenceIssues hfblk).2.1
      rw [hsi] at hsent
      have hpsi : i = si := Option.some.inj hsent
      have hb := mem_enumFrom_bounds hp
      omega

/-- Witness for C10 at a concrete paragraph with a sentence finding. -/
theorem split_sentences_wellformed_witness :
    filterNW ("Настрой router сейчас.".toList) ≠ [] ∧
    split_sentences ("Настрой router сейчас.".toList) ≠ [] ∧
    ("Настрой router сейчас.".toList ∈ split_sentences ("Настрой router сейчас.".toList) ∧
      "Настрой router сейчас.".toList ≠ []) ∧
    (1 ≤ 1 ∧ 1 ≤ (split_sentences ("Настрой router сейчас.".toList)).length) := by
  refine ⟨by decide, (split_sentences_wellformed _).1 (by decide), ⟨by decide, ?_⟩, ?_⟩
  · exact ((split_sentences_wellformed ("Настрой router сейчас.".toList)).2.1
      ("Настрой router сейчас.".toList) (by decide)).1
  · exact (split_sentences_wellformed ("Настрой router сейчас.".toList)).2.2
      [] ⟨(8, 16), 22, 5, false, true⟩ 1
      ⟨Level.INFO, "terminology", 1, some 1, "Используй рутер из глоссария."⟩ 1
      (by decide) (by decide)

theorem noSplitPt_tail {a : Char} {z : List Char} (h : noSplitPt (a :: z) = true) :
    noSplitPt z = true := by
  match z with
  | [] => rfl
  | b :: t =>
    rw [noSplitPt, Bool.and_eq_true] at h
    exact h.2

theorem noSplitPt_window {a b : Char} {t : List Char}
    (h : noSplitPt (a :: b :: t) = true) : (isTerm a && isSpaceCh b) = false := by
  by_contra hc
  rw [Bool.not_eq_false] at hc
  rw [noSplitPt, hc] at h
  simp at h

theorem dropWhile_fix_head {c : Char} {t : List Char}
    (h : (c :: t).dropWhile isSpaceCh = c :: t) : isSpaceCh c = false :=
  head_not_space_of_lstrip_fix (by rw [pyLstrip]; exact h)

theorem dropWhile_fix_of_head {c : Char} {t : List Char} (hc : isSpaceCh c = false) :
    (c :: t).dropWhile isSpaceCh = c :: t := by
  rw [List.dropWhile_cons, if_neg (by simp [hc])]

theorem sentSplit_nosplit :
    ∀ (fuel : Nat) (l : List Char) (b : Bool), l.length ≤ fuel →
      (b = true → l.dropWhile isSpaceCh = l) → noSplitPt l = true →
      sentSplitAuxF fuel b l = [l] := by
  intro fuel
  induction fuel with
  | zero =>
    intro l b hlen _ _
    cases l with
    | nil => rfl
    | cons c cs => simp at hlen
  | succ n ih =>
    intro l b hlen hb hns
    cases l with
    | nil => rfl
    | cons c cs =>
      rw [sentSplitAuxF]
      have hcond : (b && isSpaceCh c) = false := by
        cases b with
        | false => simp
        | true =>
          simp only [Bool.true_and]
          exact dropWhile_fix_head (hb rfl)
      rw [if_neg (by simp [hcond])]
      have hrec : sentSplitAuxF n (isTerm c) cs = [cs] := by
        apply ih cs (isTerm c) (by simp only [List.length_cons] at hlen; omega)
        · intro hct
          cases cs with
          | nil => rfl
          | cons d t =>
            have hw := noSplitPt_window hns
            rw [hct, Bool.true_and] at hw
            exact dropWhile_fix_of_head hw
        · exact noSplitPt_tail hns
      rw [hrec]

theorem sentSplit_boundary (t₂ : List Char) (h2 : noSplitPt t₂ = true)
    (hd2 : t₂.dropWhile isSpaceCh = t₂) :
    ∀ (fuel : Nat) (t₁ : List Char) (b : Bool),
      (t₁ ++ ' ' :: t₂).length ≤ fuel →
      noSplitPt t₁ = true → lastIsTerm t₁ = true →
      (b = true → t₁.dropWhile isSpaceCh = t₁) →
      sentSplitAuxF fuel b (t₁ ++ ' ' :: t₂) = [t₁, t₂] := by
  intro fuel
  induction fuel with
  | zero =>
    intro t₁ b hlen _ _ _
    exfalso
    simp at hlen
  | succ n ih =>
    intro t₁ b hlen h1 hterm hb
    cases t₁ with
    | nil => simp [lastIsTerm] at hterm
    | cons c t' =>
      rw [List.cons_append, sentSplitAuxF]
      have hcond : (b && isSpaceCh c) = false := by
        cases b with
        | false => simp
        | true =>
          simp only [Bool.true_and]
          exact dropWhile_fix_head (hb rfl)
      rw [if_neg (by simp [hcond])]
      cases t' with
      | nil =>
        have hct : isTerm c = true := by
          simpa [lastIsTerm] using hterm
        simp only [List.nil_append]
        have hn1 : 1 ≤ n := by
          simp only [List.cons_append, List.length_cons, List.length_append] at hlen
          omega
        obtain ⟨m, rfl⟩ : ∃ m, n = m + 1 := ⟨n - 1, by omega⟩
        rw [show sentSplitAuxF (m + 1) (isTerm c) (' ' :: t₂)
            = [] :: sentSplitAuxF m false (t₂.dropWhile isSpaceCh) from by
          rw [sentSplitAuxF, if_pos (by simp [hct, isSpaceCh])]]
        rw [hd2, sentSplit_nosplit m t₂ false
          (by simp only [List.cons_append, List.length_cons, List.length_append,
            List.length_nil] at hlen; omega)
          (by intro hc; exact absurd hc (by simp)) h2]
      | cons d t'' =>
        have hrec : sentSplitAuxF n (isTerm c) ((d :: t'') ++ ' ' :: t₂) = [d :: t'', t₂] := by
          apply ih (d :: t'') (isTerm c)
            (by simp only [List.cons_append, List.length_cons, List.length_append] at hlen ⊢
                omega)
            (noSplitPt_tail h1)
            (by simpa [lastIsTerm] using hterm)
          intro hct
          have hw := noSplitPt_window h1
          rw [hct, Bool.true_and] at hw
          exact dropWhile_fix_of_head hw
        rw [hrec]

/-- The merge pass on exactly two stripped nonempty fragments: merged into
one sentence when the first ends with an abbreviation, kept as two
sentences otherwise. -/
theorem mergeFold_two {t₁ t₂ : List Char} (hne1 : t₁ ≠ []) (hne2 : t₂ ≠ [])
    (hs1 : pyStrip t₁ = t₁) (hs2 : pyStrip t₂ = t₂) :
    [t₁, t₂].foldl mergeStep [] =
      if endsWithAbbrev t₁ then [pyRstrip t₁ ++ ' ' :: pyLstrip t₂] else [t₁, t₂] := by
  have he1 : (pyStrip t₁).isEmpty = false := by
    rw [hs1]
    simpa [List.isEmpty_iff] using hne1
  have he2 : (pyStrip t₂).isEmpty = false := by
    rw [hs2]
    simpa [List.isEmpty_iff] using hne2
  have hstep1 : mergeStep [] t₁ = [t₁] := by
    rw [mergeStep, if_neg (by simp [he1])]
    simp only [List.getLast?_nil]
    rw [hs1]
    rfl
  have hstep2 : mergeStep [t₁] t₂ =
      if endsWithAbbrev t₁ then [pyRstrip t₁ ++ ' ' :: pyLstrip t₂] else [t₁, t₂] := by
    rw [mergeStep, if_neg (by simp [he2])]
    simp only [List.getLast?_singleton]
    rw [hs2]
    by_cases hab : endsWithAbbrev t₁
    · simp only [hab, if_pos]
      rfl
    · simp only [hab, Bool.false_eq_true, if_false]
      rfl
  rw [List.foldl_cons, List.foldl_cons, List.foldl_nil, hstep1, hstep2]

/-- C3 counterexample: the fragment "В г." ends in terminal punctuation and
is followed, after the separating space, by the capitalized fragment
"Москва холодно.", yet split_sentences does not split: "г." is a configured
abbreviation, and the merge pass ignores the capitalization of the
continuation. -/
theorem abbrev_merge_claim_false :
    lastIsTerm ("В г.".toList) = true ∧
    isCapital (("Москва холодно.".toList).headD ' ') = true ∧
    split_sentences ("В г.".toList ++ ' ' :: "Москва холодно.".toList) =
      ["В г. Москва холодно.".toList] ∧
    (split_sentences ("В г.".toList ++ ' ' :: "Москва холодно.".toList)).length = 1 :=
  ⟨by decide, by decide, by decide, by decide⟩

/-- C3 (amended): for two fragments with no internal split point, the first
ending in terminal punctuation, both stripped and nonempty, joined by one
space, split_sentences merges them into a single sentence exactly when the
first fragment ends (case-insensitively, after whitespace normalization)
with a configured abbreviation — regardless of the case of the continuation
— and splits them into the two fragments otherwise. -/
theorem abbrev_merge_rule (t₁ t₂ : List Char)
    (h1 : noSplitPt t₁ = true) (h2 : noSplitPt t₂ = true)
    (hterm : lastIsTerm t₁ = true) (hne2 : t₂ ≠ [])
    (hl1 : pyLstrip t₁ = t₁) (hr1 : pyRstrip t₁ = t₁)
    (hl2 : pyLstrip t₂ = t₂) (hr2 : pyRstrip t₂ = t₂) :
    split_sentences (t₁ ++ ' ' :: t₂) =
      if endsWithAbbrev t₁ then [t₁ ++ ' ' :: t₂] else [t₁, t₂] := by
  have hne1 : t₁ ≠ [] := by
    intro hc
    rw [hc] at hterm
    simp [lastIsTerm] at hterm
  have hs1 : pyStrip t₁ = t₁ := by rw [pyStrip, hl1, hr1]
  have hs2 : pyStrip t₂ = t₂ := by rw [pyStrip, hl2, hr2]
  have hraw : sentRaw (t₁ ++ ' ' :: t₂) = [t₁, t₂] := by
    rw [sentRaw]
    exact sentSplit_boundary t₂ h2 (by rw [pyLstrip] at hl2; exact hl2) _ t₁ false
      (le_refl _) h1 hterm (by intro hc; exact absurd hc (by simp))
  rw [split_sentences, hraw, mergeFold_two hne1 hne2 hs1 hs2, hr1, hl2]

/-- Witness for the amended C3: the abbreviation example is merged into one
sentence, the plain two-sentence example is split. -/
theorem abbrev_merge_rule_witness :
    split_sentences ("Смотри рис.".toList ++ ' ' :: "3 для деталей.".toList) =
      ["Смотри рис. 3 для деталей.".toList] ∧
    split_sentences ("Это тест.".toList ++ ' ' :: "Новое предложение.".toList) =
      ["Это тест.".toList, "Новое предложение.".toList] := by
  constructor
  · rw [abbrev_merge_rule ("Смотри рис.".toList) ("3 для деталей.".toList)
      (by decide) (by decide) (by decide) (by decide) (by decide) (by decide)
      (by decide) (by decide), if_pos (by decide)]
    decide
  · rw [abbrev_merge_rule ("Это тест.".toList) ("Новое предложение.".toList)
      (by decide) (by decide) (by decide) (by decide) (by decide) (by decide)
      (by decide) (by decide), if_neg (by decide)]

theorem char_le_iff (a b : Char) : a ≤ b ↔ a.toNat ≤ b.toNat := by
  rw [Char.le_def, UInt32.le_def, BitVec.le_def]
  rfl

theorem toNat_ofNat_valid {n : Nat} (h : n.isValidChar) : (Char.ofNat n).toNat = n := by
  rw [Char.ofNat, dif_pos h, Char.ofNatAux, Char.toNat]
  rfl

theorem ruLower_fix {c : Char} (h1 : ¬(65 ≤ c.toNat ∧ c.toNat ≤ 90))
    (h2 : ¬(1040 ≤ c.toNat ∧ c.toNat ≤ 1071)) (h3 : c.toNat ≠ 1025) : ruLower c = c := by
  rw [ruLower]
  rw [if_neg (by
    intro hc
    rw [Bool.and_eq_true, decide_eq_true_eq, decide_eq_true_eq] at hc
    exact h1 ⟨(char_le_iff _ _).mp hc.1, (char_le_iff _ _).mp hc.2⟩)]
  rw [if_neg (by
    intro hc
    rw [Bool.and_eq_true, decide_eq_true_eq, decide_eq_true_eq] at hc
    exact h2 hc)]
  rw [if_neg (by
    intro hc
    exact h3 (by simpa using hc))]

theorem ruLower_idem (c : Char) : ruLower (ruLower c) = ruLower c := by
  by_cases h1 : 65 ≤ c.toNat ∧ c.toNat ≤ 90
  · have hc1 : ('A' ≤ c && c ≤ 'Z') = true := by
      rw [Bool.and_eq_true, decide_eq_true_eq, decide_eq_true_eq]
      exact ⟨(char_le_iff _ _).mpr h1.1, (char_le_iff _ _).mpr h1.2⟩
    have ht : (ruLower c).toNat = c.toNat + 32 := by
      rw [ruLower, if_pos hc1]
      exact toNat_ofNat_valid (Or.inl (by omega))
    exact ruLower_fix (by rw [ht]; omega) (by rw [ht]; omega) (by rw [ht]; omega)
  · have hc1 : ('A' ≤ c && c ≤ 'Z') = false := by
      by_contra hcc
      rw [Bool.not_eq_false, Bool.and_eq_true, decide_eq_true_eq, decide_eq_true_eq] at hcc
      exact h1 ⟨(char_le_iff _ _).mp hcc.1, (char_le_iff _ _).mp hcc.2⟩
    by_cases h2 : 1040 ≤ c.toNat ∧ c.toNat ≤ 1071
    · have hc2 : (decide (1040 ≤ c.toNat) && decide (c.toNat ≤ 1071)) = true := by
        rw [Bool.and_eq_true, decide_eq_true_eq, decide_eq_true_eq]
        exact h2
      have ht : (ruLower c).toNat = c.toNat + 32 := by
        rw [ruLower, if_neg (by simp [hc1]), if_pos hc2]
        exact toNat_ofNat_valid (Or.inl (by omega))
      exact ruLower_fix (by rw [ht]; omega) (by rw [ht]; omega) (by rw [ht]; omega)
    · have hc2 : (decide (1040 ≤ c.toNat) && decide (c.toNat ≤ 1071)) = false := by
        by_contra hcc
        rw [Bool.not_eq_false, Bool.and_eq_true, decide_eq_true_eq, decide_eq_true_eq] at hcc
        exact h2 hcc
      by_cases h3 : c.toNat = 1025
      · have ht : (ruLower c).toNat = 1105 := by
          rw [ruLower, if_neg (by simp [hc1]), if_neg (by simp [hc2]),
            if_pos (by simp [h3])]
          exact toNat_ofNat_valid (Or.inl (by omega))
        exact ruLower_fix (by rw [ht]; omega) (by rw [ht]; omega) (by rw [ht]; omega)
      · have hfix : ruLower c = c := ruLower_fix h1 h2 h3
        rw [hfix]
        exact hfix

theorem normalize_map_ruLower (l : List Char) : normalize (l.map ruLower) = normalize l := by
  have hmap : l.map (ruLower ∘ ruLower) = l.map ruLower := by
    apply List.map_congr_left
    intro a _
    simp only [Function.comp_apply]
    exact ruLower_idem a
  rw [normalize, normalize, List.map_map, hmap]

theorem wsTokensAux_space (b : List Char) :
    wsTokensAux [] (' ' :: b) = wsTokensAux [] b := by
  rw [wsTokensAux, if_pos (show isSpaceCh ' ' = true from rfl),
    if_pos (show ([] : List Char).isEmpty = true from rfl)]

theorem wsTokensAux_double (a : List Char) :
    ∀ (cur b : List Char),
      wsTokensAux cur (a ++ ' ' :: ' ' :: b) = wsTokensAux cur (a ++ ' ' :: b) := by
  induction a with
  | nil =>
    intro cur b
    simp only [List.nil_append]
    conv_lhs => rw [wsTokensAux]
    conv_rhs => rw [wsTokensAux]
    rw [if_pos (show isSpaceCh ' ' = true from rfl),
      if_pos (show isSpaceCh ' ' = true from rfl)]
    by_cases hc : cur.isEmpty = true
    · rw [if_pos hc, if_pos hc, wsTokensAux_space]
    · rw [if_neg hc, if_neg hc, wsTokensAux_space]
  | cons x a' ih =>
    intro cur b
    simp only [List.cons_append]
    conv_lhs => rw [wsTokensAux]
    conv_rhs => rw [wsTokensAux]
    by_cases hx : isSpaceCh x = true
    · rw [if_pos hx, if_pos hx]
      by_cases hc : cur.isEmpty = true
      · rw [if_pos hc, if_pos hc, ih]
      · rw [if_neg hc, if_neg hc, ih]
    · rw [if_neg hx, if_neg hx, ih]

theorem normalize_double_space (a b : List Char) :
    normalize (a ++ ' ' :: ' ' :: b) = normalize (a ++ ' ' :: b) := by
  have h2 : List.map ruLower (a ++ ' ' :: ' ' :: b)
      = List.map ruLower a ++ ' ' :: ' ' :: List.map ruLower b := by
    simp [show ruLower ' ' = ' ' from rfl]
  have h1 : List.map ruLower (a ++ ' ' :: b)
      = List.map ruLower a ++ ' ' :: List.map ruLower b := by
    simp [show ruLower ' ' = ' ' from rfl]
  rw [normalize, normalize, h1, h2, wsTokens, wsTokens, wsTokensAux_double]

theorem collectFold_sync (cands : List (List Char)) :
    ∀ out seen : List (List Char), seen = out.map normalize →
      (cands.foldl collectStep (out, seen)).2
        = (cands.foldl collectStep (out, seen)).1.map normalize := by
  induction cands with
  | nil =>
    intro out seen h
    simpa using h
  | cons p rest ih =>
    intro out seen h
    rw [List.foldl_cons, collectStep]
    split
    · exact ih _ _ (by simp [h])
    · exact ih _ _ h

theorem collectFold_out (cands : List (List Char)) :
    ∀ out seen : List (List Char),
      ∃ add, (cands.foldl collectStep (out, seen)).1 = out ++ add ∧ add.Sublist cands := by
  induction cands with
  | nil =>
    intro out seen
    exact ⟨[], by simp, List.nil_sublist _⟩
  | cons p rest ih =>
    intro out seen
    rw [List.foldl_cons, collectStep]
    split
    · obtain ⟨add, h1, h2⟩ := ih (out ++ [p]) (seen ++ [normalize p])
      exact ⟨p :: add, by simpa [List.append_assoc] using h1, List.Sublist.cons₂ _ h2⟩
    · obtain ⟨add, h1, h2⟩ := ih out seen
      exact ⟨add, h1, List.sublist_cons_of_sublist _ h2⟩

theorem collectFold_nodup (cands : List (List Char)) :
    ∀ out seen : List (List Char), seen.Nodup →
      (cands.foldl collectStep (out, seen)).2.Nodup := by
  induction cands with
  | nil =>
    intro out seen h
    simpa using h
  | cons p rest ih =>
    intro out seen h
    rw [List.foldl_cons, collectStep]
    split <;> rename_i hc
    · apply ih
      rw [List.nodup_append]
      refine ⟨h, List.nodup_singleton _, ?_⟩
      intro x hx hx2
      simp only [List.mem_singleton] at hx2
      subst hx2
      rw [Bool.and_eq_true] at hc
      have := hc.2
      rw [Bool.not_eq_eq_eq_not, Bool.not_true] at this
      exact absurd (List.elem_iff.mpr hx) (by simpa [List.contains] using this)
    · exact ih _ _ h

theorem collectFold_keys (cands : List (List Char)) :
    ∀ out seen : List (List Char), (∀ p ∈ out, normalize p ≠ []) →
      ∀ p ∈ (cands.foldl collectStep (out, seen)).1, normalize p ≠ [] := by
  induction cands with
  | nil =>
    intro out seen h
    simpa using h
  | cons p rest ih =>
    intro out seen h
    rw [List.foldl_cons, collectStep]
    split <;> rename_i hc
    · apply ih
      intro q hq
      rcases List.mem_append.mp hq with hq | hq
      · exact h q hq
      · simp only [List.mem_singleton] at hq
        subst hq
        rw [Bool.and_eq_true] at hc
        simpa [List.isEmpty_iff] using hc.1
    · exact ih _ _ h

theorem collectFold_seen_mono (cands : List (List Char)) :
    ∀ (out seen : List (List Char)) (x : List Char), x ∈ seen →
      x ∈ (cands.foldl collectStep (out, seen)).2 := by
  induction cands with
  | nil =>
    intro out seen x hx
    simpa using hx
  | cons p rest ih =>
    intro out seen x hx
    rw [List.foldl_cons, collectStep]
    split
    · exact ih _ _ x (by simp [hx])
    · exact ih _ _ x hx

theorem collectFold_complete (cands : List (List Char)) :
    ∀ (out seen : List (List Char)) (q : List Char), q ∈ cands → normalize q ≠ [] →
      normalize q ∈ (cands.foldl collectStep (out, seen)).2 := by
  induction cands with
  | nil =>
    intro out seen q hq _
    simp at hq
  | cons p rest ih =>
    intro out seen q hq hkey
    rw [List.foldl_cons, collectStep]
    rcases List.mem_cons.mp hq with hq | hq
    · subst hq
      split <;> rename_i hc
      · exact collectFold_seen_mono rest _ _ _ (by simp)
      · rw [Bool.and_eq_true] at hc
        have hcontains : seen.contains (normalize q) = true := by
          by_contra hcf
          rw [Bool.not_eq_true] at hcf
          apply hc
          refine ⟨by simpa [List.isEmpty_iff] using hkey, ?_⟩
          show (!seen.contains (normalize q)) = true
          rw [hcf]
          rfl
        exact collectFold_seen_mono rest _ _ _ (List.elem_iff.mp hcontains)
    · split
      · exact ih _ _ q hq hkey
      · exact ih _ _ q hq hkey

theorem collectFold_first (post : List (List Char)) (q : List Char)
    (hkey : normalize q ≠ []) :
    ∀ (pre out seen : List (List Char)), normalize q ∉ seen →
      (∀ r ∈ pre, normalize r ≠ normalize q) →
      q ∈ ((pre ++ q :: post).foldl collectStep (out, seen)).1 := by
  intro pre
  induction pre with
  | nil =>
    intro out seen hseen _
    rw [List.nil_append, List.foldl_cons, collectStep,
      if_pos (by
        rw [Bool.and_eq_true]
        constructor
        · simpa [List.isEmpty_iff] using hkey
        · have hcf : seen.contains (normalize q) = false := by
            by_contra hcc
            rw [Bool.not_eq_false] at hcc
            exact hseen (List.elem_iff.mp hcc)
          show (!seen.contains (normalize q)) = true
          rw [hcf]
          rfl)]
    obtain ⟨add, h1, _⟩ := collectFold_out post (out ++ [q]) (seen ++ [normalize q])
    rw [h1]
    simp
  | cons r pre' ih =>
    intro out seen hseen hpre
    rw [List.cons_append, List.foldl_cons, collectStep]
    split
    · apply ih
      · intro hc
        rcases List.mem_append.mp hc with hc | hc
        · exact hseen hc
        · simp only [List.mem_singleton] at hc
          exact hpre r (by simp) hc.symm
      · intro x hx
        exact hpre x (by simp [hx])
    · apply ih
      · exact hseen
      · intro x hx
        exact hpre x (by simp [hx])

theorem bannedBlock_length (banned : List (List Char)) (pi : Nat) (para : List Char) :
    (bannedBlock banned pi para).length =
      banned.countP
        (fun p => !(normalize p).isEmpty && containsTxt (normalize p) (normalize para)) := by
  simp only [bannedBlock]
  induction banned with
  | nil => rfl
  | cons p rest ih =>
    simp only [List.map_cons, List.zip_cons_cons, List.flatten_cons, List.countP_cons,
      List.length_append]
    rw [ih]
    split <;> rename_i hc
    · simp only [List.length_singleton]
      omega
    · simp only [List.length_nil]
      omega

/-- C6: banned-phrase matching is case- and whitespace-insensitive (the
normalization is invariant under lowercasing and under collapsing doubled
spaces, and the test is containment of the normalized phrase in the
normalized paragraph, one ERROR per matching phrase per paragraph); the
banned list is assembled from the flat, cliches and nested-lexicon sources
and deduplicated by normalized form, keeping the first occurrence with its
original casing and dropping phrases with empty normal forms. -/
theorem banned_phrase_rule (cfg : Cfg) (pi : Nat) (para : List Char) :
    ((bannedBlock (collect_banned cfg) pi para).length =
      (collect_banned cfg).countP
        (fun p => !(normalize p).isEmpty && containsTxt (normalize p) (normalize para))) ∧
    (∀ f ∈ bannedBlock (collect_banned cfg) pi para,
      f.level = Level.ERROR ∧ f.ftype = "banned" ∧ f.para = pi ∧ f.sent = none) ∧
    (∀ l : List Char, normalize (l.map ruLower) = normalize l) ∧
    (∀ a b : List Char, normalize (a ++ ' ' :: ' ' :: b) = normalize (a ++ ' ' :: b)) ∧
    ((collect_banned cfg).map normalize).Nodup ∧
    (collect_banned cfg).Sublist (assembledBanned cfg) ∧
    (∀ p ∈ collect_banned cfg, normalize p ≠ []) ∧
    (∀ q ∈ assembledBanned cfg, normalize q ≠ [] →
      normalize q ∈ (collect_banned cfg).map normalize) ∧
    (∀ pre q post, assembledBanned cfg = pre ++ q :: post → normalize q ≠ [] →
      (∀ r ∈ pre, normalize r ≠ normalize q) → q ∈ collect_banned cfg) ∧
    containsTxt (normalize ("значительно улучшает".toList))
      (normalize ("Ага, Значительно  улучшает результат!".toList)) = true := by
  have hsync := collectFold_sync (assembledBanned cfg) [] [] rfl
  refine ⟨bannedBlock_length _ pi para, ?_, normalize_map_ruLower, normalize_double_space,
    ?_, ?_, ?_, ?_, ?_, by decide⟩
  · intro f hf
    obtain ⟨h1, h2, h3, h4⟩ := mem_bannedBlock hf
    exact ⟨h3, h4, h1, h2⟩
  · rw [collect_banned, ← hsync]
    exact collectFold_nodup (assembledBanned cfg) [] [] List.nodup_nil
  · obtain ⟨add, h1, h2⟩ := collectFold_out (assembledBanned cfg) [] []
    rw [collect_banned, h1, List.nil_append]
    exact h2
  · intro p hp
    exact collectFold_keys (assembledBanned cfg) [] [] (by intro q hq; simp at hq) p hp
  · intro q hq hkey
    rw [collect_banned, ← hsync]
    exact collectFold_complete (assembledBanned cfg) [] [] q hq hkey
  · intro pre q post hdec hkey hpre
    rw [collect_banned, hdec]
    exact collectFold_first post q hkey pre [] [] (by simp) hpre

/-- Witness for C6 at a concrete configuration and paragraph. -/
theorem banned_phrase_rule_witness :
    ((Finding.mk Level.ERROR "banned" 1 none
        ("Запрещённая фраза: значительно улучшает")).level = Level.ERROR ∧
      (Finding.mk Level.ERROR "banned" 1 none
        ("Запрещённая фраза: значительно улучшает")).ftype = "banned" ∧
      (Finding.mk Level.ERROR "banned" 1 none
        ("Запрещённая фраза: значительно улучшает")).para = 1 ∧
      (Finding.mk Level.ERROR "banned" 1 none
        ("Запрещённая фраза: значительно улучшает")).sent = none) ∧
    normalize ("значительно улучшает".toList) ∈
      (collect_banned ⟨[("значительно улучшает".toList)],
        some [("крайне важно".toList)], none⟩).map normalize ∧
    ("значительно улучшает".toList) ∈
      collect_banned ⟨[("значительно улучшает".toList)],
        some [("крайне важно".toList)], none⟩ := by
  refine ⟨?_, ?_, ?_⟩
  · exact (banned_phrase_rule
      ⟨[("значительно улучшает".toList)], some [("крайне важно".toList)], none⟩ 1
      ("Значительно  улучшает результат.".toList)).2.1
      (Finding.mk Level.ERROR "banned" 1 none
        ("Запрещённая фраза: значительно улучшает"))
      (by decide)
  · exact (banned_phrase_rule
      ⟨[("значительно улучшает".toList)], some [("крайне важно".toList)], none⟩ 1
      ("Значительно  улучшает результат.".toList)).2.2.2.2.2.2.2.1
      ("значительно улучшает".toList) (by decide) (by decide)
  · exact (banned_phrase_rule
      ⟨[("значительно улучшает".toList)], some [("крайне важно".toList)], none⟩ 1
      ("Значительно  улучшает результат.".toList)).2.2.2.2.2.2.2.2.1
      [] ("значительно улучшает".toList) [("крайне важно".toList)]
      (by decide) (by decide) (by simp)

theorem pairwise_fst_lt_enumFrom {α : Type} (l : List α) :
    ∀ n : Nat, (List.enumFrom n l).Pairwise (fun a b => a.1 < b.1) := by
  induction l with
  | nil => intro n; exact List.Pairwise.nil
  | cons a t ih =>
    intro n
    rw [show List.enumFrom n (a :: t) = (n, a) :: List.enumFrom (n + 1) t from rfl]
    refine List.Pairwise.cons ?_ (ih (n + 1))
    intro x hx
    have := mem_enumFrom_bounds (n := n + 1) (i := x.1) (x := x.2) (by simpa using hx)
    omega

theorem keyLeB_intro {a b : Finding}
    (h : a.para < b.para ∨ (a.para = b.para ∧ (a.sent.getD 0 < b.sent.getD 0 ∨
      (a.sent.getD 0 = b.sent.getD 0 ∧ ruleRank a.ftype ≤ ruleRank b.ftype)))) :
    keyLeB a b = true := by
  rw [keyLeB]
  rcases h with h | ⟨h1, h⟩
  · simp [findingKey, h]
  · rcases h with h2 | ⟨h2, h3⟩
    · simp [findingKey, h1, h2]
    · simp [findingKey, h1, h2, h3]

theorem pairwise_ite_singleton {R : Finding → Finding → Prop} {c : Prop} [Decidable c]
    {x : Finding} : (if c then [x] else []).Pairwise R := by
  split <;> simp

theorem rank_lenBlock {sr : Nat × Nat} {m pi si : Nat} {s : List Char} {f : Finding}
    (h : f ∈ lenBlock sr m pi si s) :
    f.para = pi ∧ f.sent = some si ∧ ruleRank f.ftype = 2 := by
  obtain ⟨h1, h2, _, h4⟩ := mem_lenBlock h
  rcases h4 with h4 | h4 <;> rw [h4] <;> exact ⟨h1, h2, by decide⟩

theorem pairwise_lenBlock {R : Finding → Finding → Prop} {sr : Nat × Nat} {m pi si : Nat}
    {s : List Char} : (lenBlock sr m pi si s).Pairwise R := by
  simp only [lenBlock]
  split
  · simp
  · split <;> simp

theorem keyLeB_step {a b : Finding} (hp : a.para = b.para) (hsa : a.sent = b.sent)
    (hr : ruleRank a.ftype ≤ ruleRank b.ftype) : keyLeB a b = true :=
  keyLeB_intro (Or.inr ⟨hp, Or.inr ⟨by rw [hsa], hr⟩⟩)

theorem pairwise_sentenceIssues (sr : Nat × Nat) (m : Nat) (pa rm : Bool) (pi si : Nat)
    (s : List Char) :
    (sentenceIssues sr m pa rm pi si s).Pairwise (fun a b => keyLeB a b = true) := by
  rw [sentenceIssues]
  rw [List.pairwise_append]
  refine ⟨?_, by rw [termBlock]; exact pairwise_ite_singleton, ?_⟩
  · rw [List.pairwise_append]
    refine ⟨?_, by rw [vagueBlock]; exact pairwise_ite_singleton, ?_⟩
    · rw [List.pairwise_append]
      refine ⟨pairwise_lenBlock, by rw [passiveBlock]; exact pairwise_ite_singleton, ?_⟩
      intro x hx y hy
      obtain ⟨x1, x2, x4⟩ := rank_lenBlock hx
      obtain ⟨y1, y2, _, y4⟩ := mem_passiveBlock hy
      exact keyLeB_step (by rw [x1, y1]) (by rw [x2, y2]) (by rw [x4, y4]; decide)
    · intro x hx y hy
      obtain ⟨y1, y2, _, y4⟩ := mem_vagueBlock hy
      rcases List.mem_append.mp hx with hx | hx
      · obtain ⟨x1, x2, x4⟩ := rank_lenBlock hx
        exact keyLeB_step (by rw [x1, y1]) (by rw [x2, y2]) (by rw [x4, y4]; decide)
      · obtain ⟨x1, x2, _, x4⟩ := mem_passiveBlock hx
        exact keyLeB_step (by rw [x1, y1]) (by rw [x2, y2]) (by rw [x4, y4]; decide)
  · intro x hx y hy
    obtain ⟨y1, y2, _, y4⟩ := mem_termBlock hy
    rcases List.mem_append.mp hx with hx | hx
    · rcases List.mem_append.mp hx with hx | hx
      · obtain ⟨x1, x2, x4⟩ := rank_lenBlock hx
        exact keyLeB_step (by rw [x1, y1]) (by rw [x2, y2]) (by rw [x4, y4]; decide)
      · obtain ⟨x1, x2, _, x4⟩ := mem_passiveBlock hx
        exact keyLeB_step (by rw [x1, y1]) (by rw [x2, y2]) (by rw [x4, y4]; decide)
    · obtain ⟨x1, x2, _, x4⟩ := mem_vagueBlock hx
      exact keyLeB_step (by rw [x1, y1]) (by rw [x2, y2]) (by rw [x4, y4]; decide)

theorem rank_paraLenBlock {mp pi : Nat} {sents : List (List Char)} {f : Finding}
    (h : f ∈ paraLenBlock mp pi sents) :
    f.para = pi ∧ f.sent = none ∧ ruleRank f.ftype = 0 := by
  obtain ⟨h1, h2, _, h4⟩ := mem_paraLenBlock h
  rw [h4]
  exact ⟨h1, h2, by decide⟩

theorem rank_bannedBlock {banned : List (List Char)} {pi : Nat} {para : List Char}
    {f : Finding} (h : f ∈ bannedBlock banned pi para) :
    f.para = pi ∧ f.sent = none ∧ ruleRank f.ftype = 1 := by
  obtain ⟨h1, h2, _, h4⟩ := mem_bannedBlock h
  rw [h4]
  exact ⟨h1, h2, by decide⟩

theorem mem_sentPart {params : LintParams} {pi : Nat} {para : List Char} {f : Finding}
    (h : f ∈ ((List.enumFrom 1 (split_sentences para)).map
      (fun p => sentenceIssues params.sr params.maxSentLen params.passiveAllowed
        params.requireMetrics pi p.1 p.2)).flatten) :
    f.para = pi ∧ ∃ si, f.sent = some si ∧ 1 ≤ si := by
  simp only [List.mem_flatten, List.mem_map] at h
  obtain ⟨blk, ⟨p, hp, hblk⟩, hfblk⟩ := h
  obtain ⟨i, x⟩ := p
  subst hblk
  obtain ⟨h1, h2, _, _⟩ := mem_sentenceIssues hfblk
  have hb := mem_enumFrom_bounds hp
  exact ⟨h1, i, h2, by omega⟩

theorem pairwise_paragraphIssues (banned : List (List Char)) (params : LintParams)
    (pi : Nat) (para : List Char) :
    (paragraphIssues banned params pi para).Pairwise (fun a b => keyLeB a b = true) := by
  show (paraLenBlock params.maxParaSents pi (split_sentences para) ++
    bannedBlock banned pi para ++
    ((List.enumFrom 1 (split_sentences para)).map
      (fun p => sentenceIssues params.sr params.maxSentLen params.passiveAllowed
        params.requireMetrics pi p.1 p.2)).flatten).Pairwise (fun a b => keyLeB a b = true)
  rw [List.pairwise_append]
  refine ⟨?_, ?_, ?_⟩
  · rw [List.pairwise_append]
    refine ⟨by rw [paraLenBlock]; exact pairwise_ite_singleton, ?_, ?_⟩
    · apply List.pairwise_of_forall_mem_list
      intro x hx y hy
      obtain ⟨x1, x2, x4⟩ := rank_bannedBlock hx
      obtain ⟨y1, y2, y4⟩ := rank_bannedBlock hy
      exact keyLeB_step (by rw [x1, y1]) (by rw [x2, y2]) (by rw [x4, y4])
    · intro x hx y hy
      obtain ⟨x1, x2, x4⟩ := rank_paraLenBlock hx
      obtain ⟨y1, y2, y4⟩ := rank_bannedBlock hy
      exact keyLeB_step (by rw [x1, y1]) (by rw [x2, y2]) (by rw [x4, y4]; decide)
  · rw [List.pairwise_flatten]
    constructor
    · intro blk hblk
      simp only [List.mem_map] at hblk
      obtain ⟨p, _, hblk⟩ := hblk
      subst hblk
      exact pairwise_sentenceIssues _ _ _ _ _ _ _
    · rw [List.pairwise_map]
      apply List.Pairwise.imp ?_ (pairwise_fst_lt_enumFrom (split_sentences para) 1)
      intro p q hpq x hx y hy
      obtain ⟨x1, x2, _, _⟩ := mem_sentenceIssues hx
      obtain ⟨y1, y2, _, _⟩ := mem_sentenceIssues hy
      exact keyLeB_intro (Or.inr ⟨by rw [x1, y1], Or.inl
        (by rw [x2, y2]; simpa using hpq)⟩)
  · intro x hx y hy
    obtain ⟨y1, ⟨si, y2, hsi⟩⟩ := mem_sentPart hy
    rcases List.mem_append.mp hx with hx | hx
    · obtain ⟨x1, x2, x4⟩ := rank_paraLenBlock hx
      exact keyLeB_intro (Or.inr ⟨by rw [x1, y1], Or.inl
        (by rw [x2, y2]; simpa using hsi)⟩)
    · obtain ⟨x1, x2, x4⟩ := rank_bannedBlock hx
      exact keyLeB_intro (Or.inr ⟨by rw [x1, y1], Or.inl
        (by rw [x2, y2]; simpa using hsi)⟩)

theorem mem_paragraphIssues {banned : List (List Char)} {params : LintParams} {pi : Nat}
    {para : List Char} {f : Finding} (h : f ∈ paragraphIssues banned params pi para) :
    f.para = pi := by
  have h2 : f ∈ paraLenBlock params.maxParaSents pi (split_sentences para) ++
      bannedBlock banned pi para ++
      ((List.enumFrom 1 (split_sentences para)).map
        (fun p => sentenceIssues params.sr params.maxSentLen params.passiveAllowed
          params.requireMetrics pi p.1 p.2)).flatten := h
  simp only [List.mem_append] at h2
  rcases h2 with (h2 | h2) | h2
  · exact (mem_paraLenBlock h2).1
  · exact (mem_bannedBlock h2).1
  · exact (mem_sentPart h2).1

/-- C8: the findings of check_file are emitted in nondecreasing order of the
key (paragraph index, sentence index with 0 for paragraph-level findings,
canonical rule rank), so paragraphs come in increasing order, paragraph-level
findings (paragraph length, then banned phrases) precede the sentence-level
findings of their paragraph, sentences come in increasing order, and each
sentence's findings follow the rule order length, passive, vague,
terminology; moreover a finding carries no sentence index exactly when it is
a paragraph-level (paragraph-length or banned-phrase) finding. -/
theorem findings_order (fname : String) (cfg : Cfg) (params : LintParams)
    (text : List Char) :
    (check_file fname cfg params text).issues.Pairwise (fun a b => keyLeB a b = true) ∧
    (∀ f ∈ (check_file fname cfg params text).issues,
      (f.sent = none ↔ (f.ftype = "paragraph_len" ∨ f.ftype = "banned"))) := by
  constructor
  · show (((List.enumFrom 1 (split_paragraphs text)).map
      (fun p => paragraphIssues (collect_banned cfg) params p.1 p.2)).flatten).Pairwise
        (fun a b => keyLeB a b = true)
    rw [List.pairwise_flatten]
    constructor
    · intro blk hblk
      simp only [List.mem_map] at hblk
      obtain ⟨p, _, hblk⟩ := hblk
      subst hblk
      exact pairwise_paragraphIssues _ _ _ _
    · rw [List.pairwise_map]
      apply List.Pairwise.imp ?_ (pairwise_fst_lt_enumFrom (split_paragraphs text) 1)
      intro p q hpq x hx y hy
      have hxp := mem_paragraphIssues hx
      have hyp := mem_paragraphIssues hy
      exact keyLeB_intro (Or.inl (by rw [hxp, hyp]; exact hpq))
  · intro f hf
    have hf2 : f ∈ ((List.enumFrom 1 (split_paragraphs text)).map
        (fun p => paragraphIssues (collect_banned cfg) params p.1 p.2)).flatten := hf
    simp only [List.mem_flatten, List.mem_map] at hf2
    obtain ⟨blk, ⟨p, _, hblk⟩, hfblk⟩ := hf2
    subst hblk
    have hfblk2 : f ∈ paraLenBlock params.maxParaSents p.1 (split_sentences p.2) ++
        bannedBlock (collect_banned cfg) p.1 p.2 ++
        ((List.enumFrom 1 (split_sentences p.2)).map
          (fun q => sentenceIssues params.sr params.maxSentLen params.passiveAllowed
            params.requireMetrics p.1 q.1 q.2)).flatten := hfblk
    simp only [List.mem_append] at hfblk2
    rcases hfblk2 with (h | h) | h
    · obtain ⟨_, h2, _, h4⟩ := mem_paraLenBlock h
      rw [h2, h4]
      simp
    · obtain ⟨_, h2, _, h4⟩ := mem_bannedBlock h
      rw [h2, h4]
      simp
    · obtain ⟨_, ⟨si, h2, _⟩⟩ := mem_sentPart h
      rw [h2]
      constructor
      · intro hc
        exact absurd hc (by simp)
      · intro hc
        exfalso
        simp only [List.mem_flatten, List.mem_map] at h
        obtain ⟨blk, ⟨q, _, hblk⟩, hfblk⟩ := h
        subst hblk
        rw [sentenceIssues] at hfblk
        simp only [List.mem_append] at hfblk
        rcases hfblk with ((hb | hb) | hb) | hb
        · rcases (mem_lenBlock hb).2.2.2 with h4 | h4 <;> rw [h4] at hc <;>
            rcases hc with hc | hc <;> simp at hc
        · rw [(mem_passiveBlock hb).2.2.2] at hc
          rcases hc with hc | hc <;> simp at hc
        · rw [(mem_vagueBlock hb).2.2.2] at hc
          rcases hc with hc | hc <;> simp at hc
        · rw [(mem_termBlock hb).2.2.2] at hc
          rcases hc with hc | hc <;> simp at hc

/-- Witness for C8: the terminology finding of a concrete file carries a
sentence index and is not paragraph-level. -/
theorem findings_order_witness :
    ((Finding.mk Level.INFO "terminology" 1 (some 1)
        "Используй рутер из глоссария.").sent = none ↔
      ((Finding.mk Level.INFO "terminology" 1 (some 1)
          "Используй рутер из глоссария.").ftype = "paragraph_len" ∨
        (Finding.mk Level.INFO "terminology" 1 (some 1)
          "Используй рутер из глоссария.").ftype = "banned")) :=
  (findings_order "draft.md" ⟨[], none, none⟩ ⟨(8, 16), 22, 5, false, true⟩
    ("Настрой router.".toList)).2
    (Finding.mk Level.INFO "terminology" 1 (some 1) "Используй рутер из глоссария.")
    (by decide)

theorem render_md_foldl (results : List FileResult) :
    ∀ (lines : List String) (n : Nat),
      (results.foldl (fun acc r =>
        (acc.1 ++ fileLines r, acc.2 + r.issues.countP (fun it => it.level == Level.ERROR)))
        (lines, n)).2 = n + errorTotal results := by
  induction results with
  | nil => intro lines n; simp [errorTotal]
  | cons r t ih =>
    intro lines n
    rw [List.foldl_cons, ih]
    simp only [errorTotal, List.map_cons, List.sum_cons]
    omega

theorem render_md_snd (results : List FileResult) :
    (render_md results).2 = errorTotal results := by
  rw [render_md, render_md_foldl]
  omega

theorem errorTotal_flatten (results : List FileResult) :
    errorTotal results =
      (results.map FileResult.issues).flatten.countP (fun f => f.level == Level.ERROR) := by
  induction results with
  | nil => rfl
  | cons r t ih =>
    simp only [errorTotal, List.map_cons, List.sum_cons, List.flatten_cons,
      List.countP_append] at ih ⊢
    omega

theorem mainExit_eq (cfgPresent : Bool) (cfg : Cfg) (params : LintParams)
    (targets : List (String × List Char)) :
    mainExit cfgPresent cfg params targets =
      if cfgPresent = false ∨ targets = [] then 2
      else if 0 < errorTotal (targets.map (fun t => check_file t.1 cfg params t.2)) then 1
      else 0 := by
  rw [mainExit]
  cases cfgPresent with
  | false => simp
  | true =>
    simp only [Bool.not_true, Bool.false_eq_true, if_false]
    cases targets with
    | nil => simp
    | cons a t =>
      have hcond : ¬(true = false ∨ a :: t = []) := by
        rintro (h | h)
        · exact absurd h (by decide)
        · exact absurd h (by simp)
      rw [if_neg hcond]
      rw [if_neg (by simp : ¬((a :: t).isEmpty = true))]
      show (if (render_md ((a :: t).map (fun t => check_file t.1 cfg params t.2))).2 ≠ 0
        then 1 else 0) = _
      rw [render_md_snd]
      by_cases h : errorTotal ((a :: t).map (fun t => check_file t.1 cfg params t.2)) = 0
      · rw [h]
        simp
      · rw [if_pos h, if_pos (Nat.pos_of_ne_zero h)]

/-- C4: the exit status of main is 2 exactly when the configuration document
is missing or no target files were found; otherwise, when at least one file
was analyzed, it is 1 exactly when at least one ERROR-severity finding exists
across all files and 0 exactly when none does — render_md accumulates
precisely the ERROR count, which counts only ERROR-level findings across the
flattened issue lists, so WARN and INFO findings never affect the exit
status. -/
theorem exit_status (cfgPresent : Bool) (cfg : Cfg) (params : LintParams)
    (targets : List (String × List Char)) :
    (render_md (targets.map (fun t => check_file t.1 cfg params t.2))).2 =
      errorTotal (targets.map (fun t => check_file t.1 cfg params t.2)) ∧
    (∀ results : List FileResult, errorTotal results =
      (results.map FileResult.issues).flatten.countP (fun f => f.level == Level.ERROR)) ∧
    (mainExit cfgPresent cfg params targets = 2 ↔ (cfgPresent = false ∨ targets = [])) ∧
    (cfgPresent = true → targets ≠ [] →
      ((mainExit cfgPresent cfg params targets = 1 ↔
        0 < errorTotal (targets.map (fun t => check_file t.1 cfg params t.2))) ∧
       (mainExit cfgPresent cfg params targets = 0 ↔
        errorTotal (targets.map (fun t => check_file t.1 cfg params t.2)) = 0))) := by
  refine ⟨render_md_snd _, errorTotal_flatten, ?_, ?_⟩
  · rw [mainExit_eq]
    by_cases hcond : (cfgPresent = false ∨ targets = [])
    · simp [hcond]
    · rw [if_neg hcond]
      constructor
      · intro h2
        split at h2 <;> omega
      · intro hc
        exact absurd hc hcond
  · intro hct htne
    have hcond : ¬(cfgPresent = false ∨ targets = []) := by
      rintro (h | h)
      · rw [hct] at h
        exact absurd h (by decide)
      · exact htne h
    rw [mainExit_eq, if_neg hcond]
    by_cases h : 0 < errorTotal (targets.map (fun t => check_file t.1 cfg params t.2))
    · rw [if_pos h]
      constructor
      · exact ⟨fun _ => h, fun _ => rfl⟩
      · exact ⟨fun hx => absurd hx (by decide), fun hx => absurd h (by omega)⟩
    · rw [if_neg h]
      constructor
      · exact ⟨fun hx => absurd hx (by decide), fun hx => absurd hx (by omega)⟩
      · exact ⟨fun _ => by omega, fun _ => rfl⟩

/-- Witness for C4: missing configuration exits 2, a file with a banned
phrase (an ERROR) exits 1, and a file with only an INFO finding exits 0. -/
theorem exit_status_witness :
    mainExit false (Cfg.mk [] none none) (LintParams.mk (8, 16) 22 5 false true) [] = 2 ∧
    mainExit true (Cfg.mk ["значительно улучшает".toList] none none)
      (LintParams.mk (8, 16) 22 5 false true)
      [("draft.md", "Это значительно улучшает.".toList)] = 1 ∧
    mainExit true (Cfg.mk [] none none) (LintParams.mk (8, 16) 22 5 false true)
      [("draft.md", "Привет мир.".toList)] = 0 :=
  ⟨((exit_status false (Cfg.mk [] none none) (LintParams.mk (8, 16) 22 5 false true)
      []).2.2.1).mpr (Or.inr rfl),
   (((exit_status true (Cfg.mk ["значительно улучшает".toList] none none)
      (LintParams.mk (8, 16) 22 5 false true)
      [("draft.md", "Это значительно улучшает.".toList)]).2.2.2 rfl
      (by decide)).1).mpr (by decide),
   (((exit_status true (Cfg.mk [] none none) (LintParams.mk (8, 16) 22 5 false true)
      [("draft.md", "Привет мир.".toList)]).2.2.2 rfl (by decide)).2).mpr (by decide)⟩

end StyleLint
